import Mathlib

/-!
Cosa IOStream: a verification development.

A shallow embedding of `Cosa/IOStream.cpp` (the `IOStream::Device` byte
contract and the `IOStream` print family) together with theorems about it.

Conventions of the embedding.

* A `char` is kept as its raw byte, a natural number below 256.  An `int`
  result (the status of `putchar`, the result of `getchar`) is an `Int`.
* A `Device` is the table of virtual member functions over a device state
  `σ`; every call takes the state and returns the new one.
* Memory that is only read (a string, a source buffer) is the list of the
  bytes stored from the pointer onwards; `*s++` is head and tail, and a read
  past the end of the list is outside the model (`none`).
* Memory that is written (the buffers of `gets` and `read`) is a function
  from addresses to bytes, and a pointer is an address.
-/

namespace Cosa

/-! ## Target parameters -/

/-- Properties of the compilation target that the source relies on but does
not fix: the number of bits of a `char` (the `CHARBITS` constant), the sizes
in chars of `int` and `long int`, and whether plain `char` is signed. -/
structure Target where
  CHARBITS : Nat
  sizeofInt : Nat
  sizeofLong : Nat
  charSigned : Bool
  deriving DecidableEq

/-- The 8-bit AVR target of the library under avr-gcc: 8-bit chars, 16-bit
`int`, 32-bit `long int`, plain `char` signed. -/
def avr : Target := ⟨8, 2, 4, true⟩

/-- Width in bits of `int` and `unsigned int`: `sizeof(int)` chars of
`CHARBITS` bits each. -/
def Target.intBits (t : Target) : Nat := t.sizeofInt * t.CHARBITS

/-- Width in bits of `long int` and `unsigned long int`: `sizeof(long int)`
chars of `CHARBITS` bits each. -/
def Target.longBits (t : Target) : Nat := t.sizeofLong * t.CHARBITS

/-- Conversion of an integer to a signed type of `w` bits (wrap-around). -/
def wrapInt (w : Nat) (x : Int) : Int :=
  (x + 2 ^ (w - 1)) % 2 ^ w - 2 ^ (w - 1)

/-- Conversion of an `int` to the raw byte of a `char`. -/
def toByte (c : Int) : Nat := (c % 256).toNat

/-- The value of a `char` holding raw byte `b`, after integer promotion. -/
def charValue (t : Target) (b : Nat) : Int :=
  if t.charSigned ∧ 128 ≤ b then (b : Int) - 256 else (b : Int)

/-! ## The Device -/

/-- The virtual member functions of `IOStream::Device` over a state `σ`. -/
structure Device (σ : Type) where
  putchar : Nat → σ → Int × σ
  getchar : σ → Int × σ
  flush : σ → Int × σ

/-- The base class implementations (`IOStream::Device::putchar`, `getchar`
and `flush`): each returns -1 and does nothing; this is also the behaviour of
the instance `IOStream::Device::null`. -/
def Device.null (σ : Type) : Device σ where
  putchar := fun _ st => (-1, st)
  getchar := fun st => (-1, st)
  flush := fun st => (-1, st)

/-- The member function `IOStream::Device::puts(char* s)`. -/
def Device.puts {σ : Type} (d : Device σ) : List Nat → σ → Option (Int × σ)
  | [], _ => none
  | c :: s, st =>
    if c ≠ 0 then
      if (d.putchar c st).1 < 0 then some (-1, (d.putchar c st).2)
      else Device.puts d s (d.putchar c st).2
    else some (0, st)

/-- The member function `IOStream::Device::puts_P(const char* s)`: the same loop, the bytes being
fetched from program memory with `pgm_read_byte`. -/
def Device.puts_P {σ : Type} (d : Device σ) : List Nat → σ → Option (Int × σ)
  | [], _ => none
  | c :: s, st =>
    if c ≠ 0 then
      if (d.putchar c st).1 < 0 then some (-1, (d.putchar c st).2)
      else Device.puts_P d s (d.putchar c st).2
    else some (0, st)

/-- The `for` loop of `IOStream::Device::write` with `k = size - n` iterations
left, `ptr` being the bytes from the current pointer on; the final
`return (n)` converts the `size_t` counter to `int`. -/
def Device.writeLoop {σ : Type} (t : Target) (d : Device σ) :
    Nat → List Nat → Nat → σ → Option (Int × σ)
  | 0, _, n, st => some (wrapInt t.intBits n, st)
  | _ + 1, [], _, _ => none
  | k + 1, c :: ptr, n, st =>
    if (d.putchar c st).1 < 0 then some (-1, (d.putchar c st).2)
    else Device.writeLoop t d k ptr (n + 1) (d.putchar c st).2

/-- The member function `IOStream::Device::write(void* buf, size_t size)`. -/
def Device.write {σ : Type} (t : Target) (d : Device σ) (buf : List Nat) (size : Nat) (st : σ) :
    Option (Int × σ) :=
  Device.writeLoop t d size buf 0 st

/-- Writable memory: the byte stored at each address. -/
abbrev Mem := Int → Nat

/-- The store `*a = v`. -/
def Mem.set (m : Mem) (a : Int) (v : Nat) : Mem := fun x => if x = a then v else m x

/-- The `while (count--)` loop of `IOStream::Device::gets` and the code after
it; `res` is the saved start of the buffer, `s` the moving pointer, and the
result `none` is the null pointer `return (0)`. -/
def Device.getsLoop {σ : Type} (d : Device σ) (res : Int) :
    Nat → Int → Mem → σ → Option Int × Mem × σ
  | 0, s, m, st => (some res, Mem.set m (s - 1) 0, st)
  | count + 1, s, m, st =>
    if (d.getchar st).1 < 0 then (none, Mem.set m s 0, (d.getchar st).2)
    else if (d.getchar st).1 = 10 then (some res, Mem.set m s 0, (d.getchar st).2)
    else Device.getsLoop d res count (s + 1) (Mem.set m s (toByte (d.getchar st).1))
      (d.getchar st).2

/-- The member function `IOStream::Device::gets(char* s, size_t count)`. -/
def Device.gets {σ : Type} (d : Device σ) (s : Int) (count : Nat) (m : Mem) (st : σ) :
    Option Int × Mem × σ :=
  Device.getsLoop d s count s m st

/-- The `for` loop of `IOStream::Device::read` with `k = size - n` iterations
left: the `int` returned by `getchar` is stored into the `char` at `ptr`, and
it is the stored `char` that is compared with zero. -/
def Device.readLoop {σ : Type} (t : Target) (d : Device σ) :
    Nat → Int → Nat → Mem → σ → Int × Mem × σ
  | 0, _, n, m, st => (wrapInt t.intBits n, m, st)
  | k + 1, ptr, n, m, st =>
    if charValue t (toByte (d.getchar st).1) < 0 then
      (-1, Mem.set m ptr (toByte (d.getchar st).1), (d.getchar st).2)
    else
      Device.readLoop t d k (ptr + 1) (n + 1) (Mem.set m ptr (toByte (d.getchar st).1))
        (d.getchar st).2

/-- The member function `IOStream::Device::read(void* buf, size_t size)`. -/
def Device.read {σ : Type} (t : Target) (d : Device σ) (buf : Int) (size : Nat) (m : Mem)
    (st : σ) : Int × Mem × σ :=
  Device.readLoop t d size buf 0 m st

/-! ## Observations used to state the contracts -/

/-- The state reached by calling `putchar` on each byte of a list in order,
whatever the calls return. -/
def Device.putAll {σ : Type} (d : Device σ) : List Nat → σ → σ
  | [], st => st
  | c :: cs, st => Device.putAll d cs (d.putchar c st).2

/-- Every `putchar` call made when the bytes of a list are written in order
returns a non-negative status. -/
def Device.accepts {σ : Type} (d : Device σ) : List Nat → σ → Prop
  | [], _ => True
  | c :: cs, st => 0 ≤ (d.putchar c st).1 ∧ Device.accepts d cs (d.putchar c st).2

/-- The results of the next `n` calls of `getchar`, in order. -/
def Device.getResults {σ : Type} (d : Device σ) : Nat → σ → List Int
  | 0, _ => []
  | n + 1, st => (d.getchar st).1 :: Device.getResults d n (d.getchar st).2

/-- The state reached after `n` calls of `getchar`. -/
def Device.afterGets {σ : Type} (d : Device σ) : Nat → σ → σ
  | 0, st => st
  | n + 1, st => Device.afterGets d n (d.getchar st).2

/-- State of the test device: the pending results of `getchar` and the bytes
`putchar` has been called on so far. -/
structure Script where
  input : List Int
  calls : List Nat
  deriving DecidableEq

/-- A concrete device for examples: `putchar` records its argument and
succeeds for the first `cap` calls only; `getchar` returns the pending
results one by one and fails when none is left. -/
def scriptDev (cap : Nat) : Device Script where
  putchar := fun c s =>
    (if s.calls.length < cap then 0 else -1, { s with calls := s.calls ++ [c] })
  getchar := fun s =>
    match s.input with
    | [] => (-1, s)
    | r :: rest => (r, { s with input := rest })
  flush := fun s => (0, s)

/-- A memory holding zero everywhere. -/
def zeroMem : Mem := fun _ => 0

/-- The stores `a[0] = b0; a[1] = b1; ...` of a list of bytes in order. -/
def Mem.store (m : Mem) (a : Int) : List Nat → Mem
  | [] => m
  | b :: bs => Mem.store (Mem.set m a b) (a + 1) bs

/-- The `n` bytes held at addresses `a`, `a + 1`, ... -/
def Mem.load (m : Mem) (a : Int) : Nat → List Nat
  | 0 => []
  | n + 1 => m a :: Mem.load m (a + 1) n

/-- A result of `getchar` that `gets` keeps: a byte value other than newline. -/
def lineByte (b : Nat) : Prop := b < 256 ∧ b ≠ 10

instance lineByte.decidable (b : Nat) : Decidable (lineByte b) :=
  inferInstanceAs (Decidable (b < 256 ∧ b ≠ 10))

/-! ## Number conversion -/

/-- ASCII code of the digit of value `v`: `'0'`..`'9'`, then lowercase
letters. -/
def digitChar (v : Nat) : Nat := if v < 10 then 48 + v else 87 + v

/-- The digits of `v` in the given radix, least significant first, as the
conversion loop produces them: emit `v % radix`, divide, and go on while the
quotient is not zero.  The first argument bounds the number of rounds. -/
def utoaLoop (radix : Nat) : Nat → Nat → List Nat
  | 0, _ => []
  | fuel + 1, v =>
    digitChar (v % radix) :: (if v / radix = 0 then [] else utoaLoop radix fuel (v / radix))

/-- Modelled from the spec: the conversion routines `itoa`, `ltoa`, `utoa`
and `ultoa` that the print overloads call are C library routines, absent from
the sources; the spec (4.2, step 2) has them convert the value to its ASCII
digit representation in the given base.  The model is the AVR C library's:
the digits most significant first, no leading zeros, lowercase letters above
9.  This is the text of an unsigned value. -/
def utoaText (v radix : Nat) : List Nat := (utoaLoop radix (v + 1) v).reverse

/-- Modelled from the spec: the text of a signed value of `w` bits (see
`utoaText`).  As in the AVR C library, a negative value gets a minus sign in
radix 10 only; in any other radix the value is converted as the unsigned
number with the same `w` bits. -/
def itoaText (w : Nat) (n : Int) (radix : Nat) : List Nat :=
  if radix = 10 ∧ n < 0 then 45 :: utoaText (-n).toNat 10
  else utoaText (n % 2 ^ w).toNat radix

/-- The conversion result in the caller's buffer: the text, its zero
terminator, and the rest of the buffer untouched; `none` when text and
terminator do not fit in the buffer. -/
def storeText (text buf : List Nat) : Option (List Nat) :=
  if text.length + 1 ≤ buf.length then some (text ++ 0 :: buf.drop (text.length + 1)) else none

/-- Modelled from the spec: `itoa(n, buf, radix)`, see `itoaText`. -/
def itoa (t : Target) (n : Int) (buf : List Nat) (radix : Nat) : Option (List Nat) :=
  storeText (itoaText t.intBits n radix) buf

/-- Modelled from the spec: `ltoa(n, buf, radix)`, see `itoaText`. -/
def ltoa (t : Target) (n : Int) (buf : List Nat) (radix : Nat) : Option (List Nat) :=
  storeText (itoaText t.longBits n radix) buf

/-- Modelled from the spec: `utoa(n, buf, radix)`, see `utoaText`. -/
def utoa (n : Nat) (buf : List Nat) (radix : Nat) : Option (List Nat) :=
  storeText (utoaText n radix) buf

/-- Modelled from the spec: `ultoa(n, buf, radix)`, see `utoaText`. -/
def ultoa (n : Nat) (buf : List Nat) (radix : Nat) : Option (List Nat) :=
  storeText (utoaText n radix) buf

/-- Value of a digit character, if it is one. -/
def digitValue (c : Nat) : Option Nat :=
  if 48 ≤ c ∧ c ≤ 57 then some (c - 48)
  else if 97 ≤ c ∧ c ≤ 122 then some (c - 87)
  else none

/-- Reading a run of digits of the given radix, most significant first, on
top of the value `acc` read so far. -/
def parseDigits (radix : Nat) : List Nat → Nat → Option Nat
  | [], acc => some acc
  | c :: cs, acc =>
    match digitValue c with
    | some v => if v < radix then parseDigits radix cs (acc * radix + v) else none
    | none => none

/-- Reading a text as a number in the given radix: an optional minus sign and
at least one digit. -/
def parseNumber (radix : Nat) : List Nat → Option Int
  | [] => none
  | c :: cs =>
    if c = 45 then
      if cs = [] then none else (parseDigits radix cs 0).map fun v => -(v : Int)
    else (parseDigits radix (c :: cs) 0).map fun v => (v : Int)

/-- The base prefix of the spec: "0b" for base 2, "0" for base 8, "0x" for
base 16, nothing otherwise. -/
def basePrefix (base : Nat) : List Nat :=
  if base = 2 then [48, 98] else if base = 8 then [48] else if base = 16 then [48, 120] else []

/-- The bases of the print family. -/
def printBase (base : Nat) : Prop := base = 2 ∨ base = 8 ∨ base = 10 ∨ base = 16

instance printBase.decidable (base : Nat) : Decidable (printBase base) :=
  inferInstanceAs (Decidable (base = 2 ∨ base = 8 ∨ base = 10 ∨ base = 16))

/-- The values of a signed integer type of `w` bits. -/
def signedRange (w : Nat) (n : Int) : Prop := -(2 ^ (w - 1)) ≤ n ∧ n < 2 ^ (w - 1)

instance signedRange.decidable (w : Nat) (n : Int) : Decidable (signedRange w n) :=
  inferInstanceAs (Decidable (-(2 ^ (w - 1)) ≤ n ∧ n < 2 ^ (w - 1)))

/-! ## The stream -/

/-- The state of an `IOStream`: the state of the Device it is bound to
(`m_dev`) and its current base (`m_base`). -/
structure IOStream (σ : Type) where
  dev : σ
  m_base : Nat
  deriving DecidableEq

/-- Modelled from the spec: `IOStream::print(char* s)` is defined in the
header, absent from the sources; per the spec (4.2, step 3) it forwards the
null-terminated string to the Device via the string-write path, `puts`, whose
status it drops. -/
def IOStream.print_str {σ : Type} (d : Device σ) (outs : IOStream σ) (s : List Nat) :
    Option (IOStream σ) :=
  (d.puts s outs.dev).map fun r => { outs with dev := r.2 }

/-- Modelled from the spec: `IOStream::print_P(const char* s)` is defined in
the header, absent from the sources; per the spec (4.2, step 1) it is the
constant-memory string path, `puts_P`, whose status it drops. -/
def IOStream.print_P {σ : Type} (d : Device σ) (outs : IOStream σ) (s : List Nat) :
    Option (IOStream σ) :=
  (d.puts_P s outs.dev).map fun r => { outs with dev := r.2 }

/-- The member function `IOStream::print_prefix(uint8_t base)`. -/
def IOStream.print_prefix {σ : Type} (d : Device σ) (outs : IOStream σ) (base : Nat) :
    Option (IOStream σ) :=
  if base = 2 then IOStream.print_P d outs [48, 98, 0]
  else if base = 8 then IOStream.print_P d outs [48, 0]
  else if base = 16 then IOStream.print_P d outs [48, 120, 0]
  else some outs

/-- The call-local `char buf[size]` before the conversion fills it. -/
def localBuf (size : Nat) : List Nat := List.replicate size 0

/-- The member function `IOStream::print(int n, uint8_t base)`. -/
def IOStream.print_int {σ : Type} (t : Target) (d : Device σ) (outs : IOStream σ) (n : Int)
    (base : Nat) : Option (IOStream σ) :=
  (if base ≠ 10 then IOStream.print_prefix d outs base else some outs).bind fun outs1 =>
    (itoa t n (localBuf (t.sizeofInt * t.CHARBITS + 1)) base).bind fun buf =>
      IOStream.print_str d outs1 buf

/-- The member function `IOStream::print(long int n, uint8_t base)`. -/
def IOStream.print_long {σ : Type} (t : Target) (d : Device σ) (outs : IOStream σ) (n : Int)
    (base : Nat) : Option (IOStream σ) :=
  (if base ≠ 10 then IOStream.print_prefix d outs base else some outs).bind fun outs1 =>
    (ltoa t n (localBuf (t.sizeofLong * t.CHARBITS + 1)) base).bind fun buf =>
      IOStream.print_str d outs1 buf

/-- The member function `IOStream::print(unsigned int n, uint8_t base)`. -/
def IOStream.print_uint {σ : Type} (t : Target) (d : Device σ) (outs : IOStream σ) (n : Nat)
    (base : Nat) : Option (IOStream σ) :=
  (if base ≠ 10 then IOStream.print_prefix d outs base else some outs).bind fun outs1 =>
    (utoa n (localBuf (t.sizeofInt * t.CHARBITS + 1)) base).bind fun buf =>
      IOStream.print_str d outs1 buf

/-- The member function `IOStream::print(unsigned long int n, uint8_t base)`. -/
def IOStream.print_ulong {σ : Type} (t : Target) (d : Device σ) (outs : IOStream σ) (n : Nat)
    (base : Nat) : Option (IOStream σ) :=
  (if base ≠ 10 then IOStream.print_prefix d outs base else some outs).bind fun outs1 =>
    (ultoa n (localBuf (t.sizeofLong * t.CHARBITS + 1)) base).bind fun buf =>
      IOStream.print_str d outs1 buf

/-- Modelled from the spec: `IOStream::print(char c)` is defined in the
header, absent from the sources; per the spec (4.4, 4.5) a character is copied
to the stream unchanged, that is passed to `putchar` of the Device, whose
status is dropped. -/
def IOStream.print_char {σ : Type} (d : Device σ) (outs : IOStream σ) (c : Nat) : IOStream σ :=
  { outs with dev := (d.putchar c outs.dev).2 }

/-- Modelled from the spec: `IOStream::println()` is defined in the header,
absent from the sources; per the spec (4.3, 6) it emits a line break, the
single line-feed character. -/
def IOStream.println {σ : Type} (d : Device σ) (outs : IOStream σ) : IOStream σ :=
  IOStream.print_char d outs 10

/-- Modelled from the spec: `IOStream::print(void* ptr)` is defined in the
header, absent from the sources; per the spec (4.3, 4.4) a pointer is printed
as an address in hexadecimal, here through the `unsigned int` overload of 4.2
with base 16. -/
def IOStream.print_ptr {σ : Type} (t : Target) (d : Device σ) (outs : IOStream σ) (p : Nat) :
    Option (IOStream σ) :=
  IOStream.print_uint t d outs (p % 2 ^ t.intBits) 16

/-- The local `v_adj` of the memory dump: `01000` for base 8, nothing for base
10 and `0x100` for any other base. -/
def dumpAdjust (base : Nat) : Nat := if base = 10 then 0 else if base = 8 then 512 else 256

/-- The local `adj` of the memory dump: `(v_adj != 0)`. -/
def dumpSkip (base : Nat) : Nat := if dumpAdjust base ≠ 0 then 1 else 0

/-- The `while (size--)` loop of the memory dump and the code after it: `p` is
the moving pointer into the memory `m`, `n` the `uint8_t` column counter. -/
def IOStream.dumpLoop {σ : Type} (t : Target) (d : Device σ) (m : Mem) (base max : Nat) :
    Nat → Nat → Nat → IOStream σ → Option (IOStream σ)
  | 0, _, n, outs => if n ≠ 0 then some (IOStream.println d outs) else some outs
  | size + 1, p, n, outs =>
    (if n = 0 then
      (IOStream.print_ptr t d outs p).bind fun o => IOStream.print_P d o [58, 32, 0]
     else some outs).bind fun o1 =>
    (utoa ((m p % 256 + dumpAdjust base) % 2 ^ t.intBits)
        (localBuf (t.sizeofInt * t.CHARBITS + 1)) base).bind fun buf =>
    (IOStream.print_str d o1 (buf.drop (dumpSkip base))).bind fun o2 =>
    if (n + 1) % 256 < max then
      (IOStream.print_P d o2 [32, 0]).bind fun o3 =>
        IOStream.dumpLoop t d m base max size (p + 1) ((n + 1) % 256) o3
    else
      IOStream.dumpLoop t d m base max size (p + 1) 0 (IOStream.println d o2)

/-- The member function `IOStream::print(void* ptr, size_t size, uint8_t base,
uint8_t max)`, the memory dump. -/
def IOStream.dump {σ : Type} (t : Target) (d : Device σ) (m : Mem) (outs : IOStream σ)
    (ptr size base max : Nat) : Option (IOStream σ) :=
  IOStream.dumpLoop t d m base max size ptr 0 outs

/-- A variadic argument as the caller passed it. -/
inductive Arg where
  | int (n : Int)
  | uint (n : Nat)
  | long (n : Int)
  | ulong (n : Nat)
  | ptr (p : Nat)
  | str (s : List Nat)
  | pstr (s : List Nat)
  deriving DecidableEq

/-- The conversion cases `c`, `p`, `s`, `S`, `d`, `l` of the `switch` in
`IOStream::vprintf_P`: `va_arg` takes the next argument with the type the
case names (an argument of another type is outside the model, `none`) and the
matching `print` is called.  The result is the rest of the arguments and the
stream. -/
def IOStream.convert {σ : Type} (t : Target) (d : Device σ) (c : Nat) (is_signed : Bool)
    (base : Nat) (args : List Arg) (outs : IOStream σ) : Option (List Arg × IOStream σ) :=
  if c = 99 then
    match args with
    | Arg.int n :: rest => some (rest, IOStream.print_char d outs (toByte n))
    | _ => none
  else if c = 112 then
    match args with
    | Arg.ptr p :: rest => (IOStream.print_ptr t d outs p).map fun o => (rest, o)
    | _ => none
  else if c = 115 then
    match args with
    | Arg.str s :: rest => (IOStream.print_str d outs s).map fun o => (rest, o)
    | _ => none
  else if c = 83 then
    match args with
    | Arg.pstr s :: rest => (IOStream.print_P d outs s).map fun o => (rest, o)
    | _ => none
  else if c = 100 then
    if is_signed then
      match args with
      | Arg.int n :: rest => (IOStream.print_int t d outs n base).map fun o => (rest, o)
      | _ => none
    else
      match args with
      | Arg.uint n :: rest => (IOStream.print_uint t d outs n base).map fun o => (rest, o)
      | _ => none
  else if c = 108 then
    if is_signed then
      match args with
      | Arg.long n :: rest => (IOStream.print_long t d outs n base).map fun o => (rest, o)
      | _ => none
    else
      match args with
      | Arg.ulong n :: rest => (IOStream.print_ulong t d outs n base).map fun o => (rest, o)
      | _ => none
  else none

/-- The characters with a conversion case in the `switch`: `c`, `p`, `s`,
`S`, `d`, `l`. -/
def isConversion (c : Nat) : Prop :=
  c = 99 ∨ c = 112 ∨ c = 115 ∨ c = 83 ∨ c = 100 ∨ c = 108

instance isConversion.decidable (c : Nat) : Decidable (isConversion c) :=
  inferInstanceAs (Decidable (c = 99 ∨ c = 112 ∨ c = 115 ∨ c = 83 ∨ c = 100 ∨ c = 108))

/-- The characters with a modifier case in the `switch`: `b`, `o`, `h`, `x`,
`u`. -/
def isModifier (c : Nat) : Prop := c = 98 ∨ c = 111 ∨ c = 104 ∨ c = 120 ∨ c = 117

instance isModifier.decidable (c : Nat) : Decidable (isModifier c) :=
  inferInstanceAs (Decidable (c = 98 ∨ c = 111 ∨ c = 104 ∨ c = 120 ∨ c = 117))

/-- The scan of `IOStream::vprintf_P` over the format bytes from `s` on.  The
second argument is `none` at the head of the `while` loop and
`some (is_signed, base)` at the label `next` inside a directive.  The result
is the variadic arguments left unconsumed and the stream. -/
def IOStream.vprintfLoop {σ : Type} (t : Target) (d : Device σ) :
    List Nat → Option (Bool × Nat) → List Arg → IOStream σ → Option (List Arg × IOStream σ)
  | [], _, _, _ => none
  | c :: s, none, args, outs =>
    if c = 0 then some (args, outs)
    else if c = 37 then IOStream.vprintfLoop t d s (some (true, 10)) args outs
    else IOStream.vprintfLoop t d s none args (IOStream.print_char d outs c)
  | c :: s, some (is_signed, base), args, outs =>
    if c = 0 then some (args, IOStream.print_char d outs 0)
    else if c = 98 then IOStream.vprintfLoop t d s (some (is_signed, 2)) args outs
    else if c = 111 then IOStream.vprintfLoop t d s (some (is_signed, 8)) args outs
    else if c = 104 ∨ c = 120 then IOStream.vprintfLoop t d s (some (is_signed, 16)) args outs
    else if c = 117 then IOStream.vprintfLoop t d s (some (false, base)) args outs
    else if isConversion c then
      (IOStream.convert t d c is_signed base args outs).bind fun r =>
        IOStream.vprintfLoop t d s none r.1 r.2
    else IOStream.vprintfLoop t d s none args (IOStream.print_char d outs c)

/-- The member function `IOStream::vprintf_P(const char* format, va_list
args)`. -/
def IOStream.vprintf_P {σ : Type} (t : Target) (d : Device σ) (outs : IOStream σ)
    (format : List Nat) (args : List Arg) : Option (List Arg × IOStream σ) :=
  IOStream.vprintfLoop t d format none args outs

/-- The manipulator `endl(IOStream& outs)`; the result is the stream `outs`
after the call. -/
def endl {σ : Type} (d : Device σ) (outs : IOStream σ) : IOStream σ :=
  IOStream.print_char d outs 10

/-- The manipulator `bin(IOStream& outs)`; the result is the stream `outs`
after the call. -/
def bin {σ : Type} (outs : IOStream σ) : IOStream σ := { outs with m_base := 2 }

/-- The manipulator `oct(IOStream& outs)`; the result is the stream `outs`
after the call. -/
def oct {σ : Type} (outs : IOStream σ) : IOStream σ := { outs with m_base := 8 }

/-- The manipulator `dec(IOStream& outs)`; the result is the stream `outs`
after the call. -/
def dec {σ : Type} (outs : IOStream σ) : IOStream σ := { outs with m_base := 10 }

/-- The manipulator `hex(IOStream& outs)`; the result is the stream `outs`
after the call. -/
def hex {σ : Type} (outs : IOStream σ) : IOStream σ := { outs with m_base := 16 }

/-- The base that a modifier character of a directive selects: 2 for `b`, 8
for `o`, 16 for `h` and `x`; none for any other character. -/
def modifierBase (c : Nat) : Option Nat :=
  if c = 98 then some 2 else if c = 111 then some 8
  else if c = 104 ∨ c = 120 then some 16 else none

/-- The base of the last base modifier among `mods`, or `b` when there is
none. -/
def lastBase (b : Nat) (mods : List Nat) : Nat := ((mods.filterMap modifierBase).getLast?).getD b

/-- The base of a directive with the modifiers `mods`: 10 unless a base
modifier says otherwise. -/
def directiveBase (mods : List Nat) : Nat := lastBase 10 mods

/-- A directive takes its argument as signed unless `u` is among its
modifiers. -/
def directiveSigned (mods : List Nat) : Bool := !mods.contains 117

/-- The text of an address as `print(void*)` sends it: the hexadecimal print
of the address as an `unsigned int`. -/
def addrText (t : Target) (p : Nat) : List Nat :=
  basePrefix 16 ++ utoaText (p % 2 ^ t.intBits) 16

/-- The bytes of a zero-terminated string before its terminator; `none` when
the bytes hold no terminator. -/
def cstring : List Nat → Option (List Nat)
  | [] => none
  | c :: s => if c = 0 then some [] else (cstring s).map fun text => c :: text

/-- A piece of a well-formed format string: a plain character, or a directive
made of a percent sign, modifier characters and a conversion character. -/
inductive Item where
  | plain (c : Nat)
  | directive (mods : List Nat) (conv : Nat)
  deriving DecidableEq

/-- The format bytes of a piece. -/
def Item.encode : Item → List Nat
  | Item.plain c => [c]
  | Item.directive mods conv => 37 :: mods ++ [conv]

/-- A plain character is neither the terminator nor a percent sign; the
modifiers of a directive are among `b`, `o`, `h`, `x`, `u` and its conversion
character among `c`, `p`, `s`, `S`, `d`, `l`. -/
def Item.wellFormed : Item → Prop
  | Item.plain c => c ≠ 0 ∧ c ≠ 37
  | Item.directive mods conv => (∀ x ∈ mods, isModifier x) ∧ isConversion conv

instance Item.wellFormed.decidable : (it : Item) → Decidable (Item.wellFormed it)
  | Item.plain c => inferInstanceAs (Decidable (c ≠ 0 ∧ c ≠ 37))
  | Item.directive mods conv =>
    inferInstanceAs (Decidable ((∀ x ∈ mods, isModifier x) ∧ isConversion conv))

/-- The rendering of an argument by a directive, following the spec (4.4):
`c` a single character, `p` the address, `s` and `S` the bytes of the string,
`d` and `l` the number as `print(n, base)` sends it, with the base and
signedness of the modifiers.  The result is `none` when the argument is not of
the type the directive takes or not a value of that type. -/
def renderArg (t : Target) (mods : List Nat) (conv : Nat) : Arg → Option (List Nat)
  | Arg.int n =>
    if conv = 99 then some [toByte n]
    else if conv = 100 ∧ 117 ∉ mods ∧ signedRange t.intBits n then
      some (basePrefix (directiveBase mods) ++ itoaText t.intBits n (directiveBase mods))
    else none
  | Arg.uint n =>
    if conv = 100 ∧ 117 ∈ mods ∧ n < 2 ^ t.intBits then
      some (basePrefix (directiveBase mods) ++ utoaText n (directiveBase mods))
    else none
  | Arg.long n =>
    if conv = 108 ∧ 117 ∉ mods ∧ signedRange t.longBits n then
      some (basePrefix (directiveBase mods) ++ itoaText t.longBits n (directiveBase mods))
    else none
  | Arg.ulong n =>
    if conv = 108 ∧ 117 ∈ mods ∧ n < 2 ^ t.longBits then
      some (basePrefix (directiveBase mods) ++ utoaText n (directiveBase mods))
    else none
  | Arg.ptr p => if conv = 112 then some (addrText t p) else none
  | Arg.str s => if conv = 115 then cstring s else none
  | Arg.pstr s => if conv = 83 then cstring s else none

/-- The output of a format given as pieces, following the spec (4.4): each
plain character unchanged and each directive's rendering of the next
argument, in format order; with it, the arguments left over. -/
def renderItems (t : Target) : List Item → List Arg → Option (List Nat × List Arg)
  | [], args => some ([], args)
  | Item.plain c :: items, args => (renderItems t items args).map fun r => (c :: r.1, r.2)
  | Item.directive _ _ :: _, [] => none
  | Item.directive mods conv :: items, a :: args =>
    (renderArg t mods conv a).bind fun text =>
      (renderItems t items args).map fun r => (text ++ r.1, r.2)

/-- The number of directives among the pieces of a format. -/
def directiveCount : List Item → Nat
  | [] => 0
  | Item.plain _ :: items => directiveCount items
  | Item.directive _ _ :: items => directiveCount items + 1

/-- The text of one byte in the memory dump, as the loop sends it: the
conversion of the byte plus `v_adj`, without its first `adj` characters. -/
def dumpValue (t : Target) (base b : Nat) : List Nat :=
  (utoaText ((b % 256 + dumpAdjust base) % 2 ^ t.intBits) base).drop (dumpSkip base)

/-- The bytes the dump loop sends for `size` more bytes from address `p` with
the column counter at `n`, written out step by step. -/
def dumpLoopText (t : Target) (m : Mem) (base max : Nat) : Nat → Nat → Nat → List Nat
  | 0, _, n => if n ≠ 0 then [10] else []
  | size + 1, p, n =>
    (if n = 0 then addrText t p ++ [58, 32] else []) ++ dumpValue t base (m p) ++
      (if (n + 1) % 256 < max then 32 :: dumpLoopText t m base max size (p + 1) ((n + 1) % 256)
       else 10 :: dumpLoopText t m base max size (p + 1) 0)

/-- A value of the dump in column `col` of its line, following the spec (4.3):
the value, then a separating space unless it is the `max`-th value of the
line. -/
def dumpCell (t : Target) (m : Mem) (base max p col : Nat) : List Nat :=
  dumpValue t base (m p) ++ if col + 1 < max then [32] else []

/-- The values of `cnt` bytes from address `p`, the first in column `col`. -/
def dumpCells (t : Target) (m : Mem) (base max : Nat) : Nat → Nat → Nat → List Nat
  | 0, _, _ => []
  | cnt + 1, p, col => dumpCell t m base max p col ++ dumpCells t m base max cnt (p + 1) (col + 1)

/-- A line of the dump, following the spec (4.3): the address of its first
byte, ": ", its values, and one line break. -/
def dumpLine (t : Target) (m : Mem) (base max p cnt : Nat) : List Nat :=
  addrText t p ++ [58, 32] ++ dumpCells t m base max cnt p 0 ++ [10]

/-- The lines of the dump of `size` bytes from `ptr`, following the spec:
`ceil(size / max)` lines, line `k` holding the next `min(max, size - k * max)`
values. -/
def dumpLines (t : Target) (m : Mem) (base max ptr size : Nat) : List (List Nat) :=
  (List.range ((size + max - 1) / max)).map fun k =>
    dumpLine t m base max (ptr + k * max) (min max (size - k * max))

/-- A small memory for examples: a zero byte at address 16 and 255
everywhere else. -/
def sampleMem : Mem := fun a => if a = 16 then 0 else 255

/-- Modelled from the spec: the constructor of `IOStream` is defined in the
header, absent from the sources; per the spec (3) a stream is created bound
to a Device with its base at the default 10. -/
def IOStream.init {σ : Type} (dev : σ) : IOStream σ := ⟨dev, 10⟩

/-- An operation on a stream: a `print` overload, the memory dump,
`vprintf_P`, or a manipulator. -/
inductive Op where
  | printChar (c : Nat)
  | printStr (s : List Nat)
  | printP (s : List Nat)
  | printInt (n : Int) (base : Nat)
  | printLong (n : Int) (base : Nat)
  | printUint (n : Nat) (base : Nat)
  | printUlong (n : Nat) (base : Nat)
  | printPtr (p : Nat)
  | println
  | dump (ptr size base max : Nat)
  | vprintf (format : List Nat) (args : List Arg)
  | endl
  | bin
  | oct
  | dec
  | hex
  deriving DecidableEq

/-- The base manipulators among the operations. -/
def Op.setsBase : Op → Bool
  | Op.bin => true
  | Op.oct => true
  | Op.dec => true
  | Op.hex => true
  | _ => false

/-- One operation applied to a stream. -/
def IOStream.apply {σ : Type} (t : Target) (d : Device σ) (m : Mem) (outs : IOStream σ) :
    Op → Option (IOStream σ)
  | Op.printChar c => some (IOStream.print_char d outs c)
  | Op.printStr s => IOStream.print_str d outs s
  | Op.printP s => IOStream.print_P d outs s
  | Op.printInt n base => IOStream.print_int t d outs n base
  | Op.printLong n base => IOStream.print_long t d outs n base
  | Op.printUint n base => IOStream.print_uint t d outs n base
  | Op.printUlong n base => IOStream.print_ulong t d outs n base
  | Op.printPtr p => IOStream.print_ptr t d outs p
  | Op.println => some (IOStream.println d outs)
  | Op.dump ptr size base max => IOStream.dump t d m outs ptr size base max
  | Op.vprintf format args => (IOStream.vprintf_P t d outs format args).map Prod.snd
  | Op.endl => some (endl d outs)
  | Op.bin => some (bin outs)
  | Op.oct => some (oct outs)
  | Op.dec => some (dec outs)
  | Op.hex => some (hex outs)

/-- A sequence of operations applied to a stream, one after the other. -/
def IOStream.run {σ : Type} (t : Target) (d : Device σ) (m : Mem) :
    List Op → IOStream σ → Option (IOStream σ)
  | [], outs => some outs
  | op :: ops, outs => (IOStream.apply t d m outs op).bind (IOStream.run t d m ops)

/-- A memory holding 7 everywhere, for examples in which a changed byte must
show. -/
def sevenMem : Mem := fun _ => 7

/-- The values of `cnt` bytes from address `p`, each followed by one
separating space. -/
def dumpSpacedValues (t : Target) (m : Mem) (base p cnt : Nat) : List Nat :=
  (List.range cnt).flatMap fun i => dumpValue t base (m ((p + i : Nat) : Int)) ++ [32]

/-- A full line of the dump in the words of the spec (4.3): the address, ": ",
`max - 1` values each followed by a space, and the `max`-th value followed
directly by the line break. -/
def dumpFullLine (t : Target) (m : Mem) (base max p : Nat) : List Nat :=
  addrText t p ++ [58, 32] ++ dumpSpacedValues t m base p (max - 1) ++
    dumpValue t base (m ((p + (max - 1) : Nat) : Int)) ++ [10]

/-- A final line of fewer than `max` values in the words of the spec (4.3):
the address, ": ", the values each followed by a space, and the line break. -/
def dumpPartialLine (t : Target) (m : Mem) (base p cnt : Nat) : List Nat :=
  addrText t p ++ [58, 32] ++ dumpSpacedValues t m base p cnt ++ [10]

/-- The text of the dump of `size` bytes from `ptr`: `size / max` full lines
and, when `size` is not a multiple of `max`, a final partial line. -/
def dumpSpacedText (t : Target) (m : Mem) (base max ptr size : Nat) : List Nat :=
  ((List.range (size / max)).flatMap fun k => dumpFullLine t m base max (ptr + k * max)) ++
    if size % max ≠ 0 then dumpPartialLine t m base (ptr + size / max * max) (size % max) else []

/-! ## Device contracts -/

theorem accepts_append {σ : Type} (d : Device σ) (xs ys : List Nat) (st : σ) :
    d.accepts (xs ++ ys) st ↔ d.accepts xs st ∧ d.accepts ys (d.putAll xs st) := by
  induction xs generalizing st with
  | nil => simp [Device.accepts, Device.putAll]
  | cons x xs ih => simp [Device.accepts, Device.putAll, ih, and_assoc]

theorem putAll_append {σ : Type} (d : Device σ) (xs ys : List Nat) (st : σ) :
    d.putAll (xs ++ ys) st = d.putAll ys (d.putAll xs st) := by
  induction xs generalizing st with
  | nil => rfl
  | cons x xs ih => simp [Device.putAll, ih]

theorem puts_accepted {σ : Type} (d : Device σ) (bytes rest : List Nat) (st : σ)
    (h0 : ∀ b ∈ bytes, b ≠ 0) (hacc : d.accepts bytes st) :
    d.puts (bytes ++ 0 :: rest) st = some (0, d.putAll bytes st) := by
  induction bytes generalizing st with
  | nil => simp [Device.puts, Device.putAll]
  | cons b bs ih =>
    have hb : b ≠ 0 := h0 b (List.mem_cons_self _ _)
    have hok : ¬ (d.putchar b st).1 < 0 := not_lt.mpr hacc.1
    simp only [List.cons_append, Device.puts, Device.putAll, hb, ne_eq, not_false_eq_true,
      if_true, hok, if_false]
    exact ih _ (fun x hx => h0 x (List.mem_cons_of_mem _ hx)) hacc.2

theorem puts_rejected {σ : Type} (d : Device σ) (pre : List Nat) (c : Nat) (tail : List Nat)
    (st : σ) (h0 : ∀ b ∈ pre, b ≠ 0) (hc : c ≠ 0) (hacc : d.accepts pre st)
    (hrej : (d.putchar c (d.putAll pre st)).1 < 0) :
    d.puts (pre ++ c :: tail) st = some (-1, d.putAll (pre ++ [c]) st) := by
  induction pre generalizing st with
  | nil =>
    have hrej' : (d.putchar c st).1 < 0 := hrej
    simp [Device.puts, Device.putAll, hc, hrej']
  | cons b bs ih =>
    have hb : b ≠ 0 := h0 b (List.mem_cons_self _ _)
    have hok : ¬ (d.putchar b st).1 < 0 := not_lt.mpr hacc.1
    simp only [List.cons_append, Device.puts, Device.putAll, hb, ne_eq, not_false_eq_true,
      if_true, hok, if_false]
    exact ih _ (fun x hx => h0 x (List.mem_cons_of_mem _ hx)) hacc.2 hrej

theorem puts_P_eq_puts {σ : Type} (d : Device σ) (s : List Nat) (st : σ) :
    d.puts_P s st = d.puts s st := by
  induction s generalizing st with
  | nil => rfl
  | cons c s ih => simp only [Device.puts_P, Device.puts, ih]

theorem accepts_or_rejects {σ : Type} (d : Device σ) (bytes : List Nat) (st : σ) :
    d.accepts bytes st ∨ ∃ (pre : List Nat) (c : Nat) (post : List Nat),
      bytes = pre ++ c :: post ∧ d.accepts pre st ∧ (d.putchar c (d.putAll pre st)).1 < 0 := by
  induction bytes generalizing st with
  | nil => exact Or.inl trivial
  | cons b bs ih =>
    by_cases hb : 0 ≤ (d.putchar b st).1
    · rcases ih (d.putchar b st).2 with h | ⟨pre, c, post, h1, h2, h3⟩
      · exact Or.inl ⟨hb, h⟩
      · exact Or.inr ⟨b :: pre, c, post, by rw [h1]; rfl, ⟨hb, h2⟩, h3⟩
    · exact Or.inr ⟨[], b, bs, rfl, trivial, not_le.mp hb⟩

/-- C1: for every Device and every zero-terminated string (bytes without a
zero, then the terminator, then anything), `puts` and `puts_P` call `putchar`
on the bytes before the terminator in order and never on the terminator: when
every call succeeds they return 0 having written all the bytes; when the call
on a byte `c` is the first to fail they return -1 right after it, no later
byte having been passed to `putchar`. -/
theorem puts_contract {σ : Type} (d : Device σ) (bytes rest : List Nat) (st : σ)
    (h0 : ∀ b ∈ bytes, b ≠ 0) :
    (d.accepts bytes st →
      d.puts (bytes ++ 0 :: rest) st = some (0, d.putAll bytes st) ∧
      d.puts_P (bytes ++ 0 :: rest) st = some (0, d.putAll bytes st)) ∧
    (∀ (pre : List Nat) (c : Nat) (post : List Nat), bytes = pre ++ c :: post →
      d.accepts pre st → (d.putchar c (d.putAll pre st)).1 < 0 →
      d.puts (bytes ++ 0 :: rest) st = some (-1, d.putAll (pre ++ [c]) st) ∧
      d.puts_P (bytes ++ 0 :: rest) st = some (-1, d.putAll (pre ++ [c]) st)) ∧
    (d.accepts bytes st ∨ ∃ (pre : List Nat) (c : Nat) (post : List Nat),
      bytes = pre ++ c :: post ∧ d.accepts pre st ∧ (d.putchar c (d.putAll pre st)).1 < 0) := by
  refine ⟨fun hacc => ?_, fun pre c post hsplit hacc hrej => ?_, ?_⟩
  · rw [puts_P_eq_puts]
    exact ⟨puts_accepted d bytes rest st h0 hacc, puts_accepted d bytes rest st h0 hacc⟩
  · subst hsplit
    have hpre : ∀ b ∈ pre, b ≠ 0 := fun b hb => h0 b (List.mem_append_left _ hb)
    have hc : c ≠ 0 := h0 c (List.mem_append_right _ (List.mem_cons_self _ _))
    rw [puts_P_eq_puts, List.append_assoc, List.cons_append]
    exact ⟨puts_rejected d pre c _ st hpre hc hacc hrej,
      puts_rejected d pre c _ st hpre hc hacc hrej⟩
  · exact accepts_or_rejects d bytes st

/-- Witness for C1 on the recording device that accepts two calls: "hi" is
written whole with status 0, "hey" stops with -1 at its third byte. -/
theorem puts_contract_witness :
    (∀ b ∈ [104, 105], b ≠ 0) ∧
    ((scriptDev 2).puts ([104, 105] ++ 0 :: [7]) ⟨[], []⟩ = some (0, ⟨[], [104, 105]⟩) ∧
     (scriptDev 2).puts_P ([104, 105] ++ 0 :: [7]) ⟨[], []⟩ = some (0, ⟨[], [104, 105]⟩)) ∧
    ((scriptDev 2).puts ([104, 101, 121, 33] ++ 0 :: []) ⟨[], []⟩
        = some (-1, ⟨[], [104, 101, 121]⟩) ∧
     (scriptDev 2).puts_P ([104, 101, 121, 33] ++ 0 :: []) ⟨[], []⟩
        = some (-1, ⟨[], [104, 101, 121]⟩)) :=
  ⟨by decide,
   (puts_contract (scriptDev 2) [104, 105] [7] ⟨[], []⟩ (by decide)).1
     (by simp [Device.accepts, scriptDev]),
   (puts_contract (scriptDev 2) [104, 101, 121, 33] [] ⟨[], []⟩ (by decide)).2.1
     [104, 101] 121 [33] rfl (by simp [Device.accepts, scriptDev])
     (by simp [Device.putAll, scriptDev])⟩

/-! ### write -/

theorem wrapInt_of_small (w : Nat) (x : Nat) (hw : 0 < w) (hx : (x : Int) < 2 ^ (w - 1)) :
    wrapInt w x = x := by
  unfold wrapInt
  have h2 : (2 : Int) ^ w = 2 * 2 ^ (w - 1) := by
    obtain ⟨k, rfl⟩ : ∃ k, w = k + 1 := ⟨w - 1, by omega⟩
    simp [pow_succ, mul_comm]
  have hpos : (0 : Int) < 2 ^ (w - 1) := by positivity
  rw [Int.emod_eq_of_lt (by omega) (by omega)]
  omega

theorem writeLoop_accepted {σ : Type} (t : Target) (d : Device σ) (bytes rest : List Nat)
    (n : Nat) (st : σ) (hacc : d.accepts bytes st) :
    Device.writeLoop t d bytes.length (bytes ++ rest) n st
      = some (wrapInt t.intBits ((n + bytes.length : Nat) : Int), d.putAll bytes st) := by
  induction bytes generalizing n st with
  | nil => simp [Device.writeLoop, Device.putAll]
  | cons b bs ih =>
    have hok : ¬ (d.putchar b st).1 < 0 := not_lt.mpr hacc.1
    simp only [List.length_cons, List.cons_append, Device.writeLoop, hok, if_false,
      Device.putAll]
    have h := ih (n + 1) _ hacc.2
    rw [show n + (bs.length + 1) = n + 1 + bs.length by omega]
    exact h

theorem writeLoop_rejected {σ : Type} (t : Target) (d : Device σ) (pre : List Nat) (c : Nat)
    (tail : List Nat) (k n : Nat) (st : σ) (hk : pre.length < k) (hacc : d.accepts pre st)
    (hrej : (d.putchar c (d.putAll pre st)).1 < 0) :
    Device.writeLoop t d k (pre ++ c :: tail) n st = some (-1, d.putAll (pre ++ [c]) st) := by
  induction pre generalizing k n st with
  | nil =>
    obtain ⟨k, rfl⟩ : ∃ j, k = j + 1 := ⟨k - 1, by simp at hk; omega⟩
    have hrej' : (d.putchar c st).1 < 0 := hrej
    simp [Device.writeLoop, Device.putAll, hrej']
  | cons b bs ih =>
    obtain ⟨k, rfl⟩ : ∃ j, k = j + 1 := ⟨k - 1, by simp at hk; omega⟩
    have hok : ¬ (d.putchar b st).1 < 0 := not_lt.mpr hacc.1
    simp only [List.cons_append, Device.writeLoop, hok, if_false, Device.putAll]
    exact ih k (n + 1) _ (by simpa using hk) hacc.2 hrej

theorem scriptDev_accepts (cap : Nat) (bytes : List Nat) (s : Script)
    (h : s.calls.length + bytes.length ≤ cap) : (scriptDev cap).accepts bytes s := by
  induction bytes generalizing s with
  | nil => trivial
  | cons b bs ih =>
    simp only [List.length_cons] at h
    refine ⟨?_, ih _ ?_⟩
    · have : s.calls.length < cap := by omega
      simp [scriptDev, this]
    · simp [scriptDev]; omega

theorem scriptDev_accepts_replicate (n c : Nat) :
    (scriptDev n).accepts (List.replicate n c) ⟨[], []⟩ :=
  scriptDev_accepts _ _ _ (by simp)

theorem write_replicate (t : Target) (n c : Nat) :
    (Device.write t (scriptDev n) (List.replicate n c) n ⟨[], []⟩).map Prod.fst
      = some (wrapInt t.intBits (n : Int)) := by
  have h := writeLoop_accepted t (scriptDev n) (List.replicate n c) [] 0 ⟨[], []⟩
    (scriptDev_accepts_replicate n c)
  simp only [List.length_replicate, List.append_nil, Nat.zero_add] at h
  rw [Device.write, h]
  rfl

/-- C2 (counterexample): on the AVR target, writing a buffer of 65535 bytes to
a device that accepts every one of them returns -1, the failure sentinel,
and not the count 65535. -/
theorem write_count_wraps :
    (scriptDev 65535).accepts (List.replicate 65535 65) ⟨[], []⟩ ∧
    (Device.write avr (scriptDev 65535) (List.replicate 65535 65) 65535 ⟨[], []⟩).map Prod.fst
      = some (-1) :=
  ⟨scriptDev_accepts_replicate 65535 65, (write_replicate avr 65535 65).trans (by decide)⟩

/-- C2 (amended): for every Device, target with a non-degenerate `int`, buffer
and size not above the largest `int`, `write` calls `putchar` on the first
`size` bytes in order; when they all succeed it returns exactly `size`; when
the call on a byte `c` is the first to fail it returns -1 right after it
(never a partial count), no later byte having been passed to `putchar`. The
failure half holds for every size. -/
theorem write_contract {σ : Type} (t : Target) (d : Device σ) (bytes rest : List Nat) (st : σ) :
    (0 < t.intBits → (bytes.length : Int) < 2 ^ (t.intBits - 1) → d.accepts bytes st →
      Device.write t d (bytes ++ rest) bytes.length st
        = some ((bytes.length : Int), d.putAll bytes st)) ∧
    (∀ (pre : List Nat) (c : Nat) (post : List Nat), bytes = pre ++ c :: post →
      d.accepts pre st → (d.putchar c (d.putAll pre st)).1 < 0 →
      Device.write t d (bytes ++ rest) bytes.length st
        = some (-1, d.putAll (pre ++ [c]) st)) ∧
    (d.accepts bytes st ∨ ∃ (pre : List Nat) (c : Nat) (post : List Nat),
      bytes = pre ++ c :: post ∧ d.accepts pre st ∧ (d.putchar c (d.putAll pre st)).1 < 0) := by
  refine ⟨fun hw hsize hacc => ?_, fun pre c post hsplit hacc hrej => ?_,
    accepts_or_rejects d bytes st⟩
  · rw [Device.write, writeLoop_accepted t d bytes rest 0 st hacc, Nat.zero_add,
      wrapInt_of_small _ _ hw hsize]
  · subst hsplit
    rw [Device.write, List.append_assoc, List.cons_append]
    exact writeLoop_rejected t d pre c _ _ 0 st (by simp) hacc hrej

/-- Witness for C2 (amended) on the AVR target: three bytes are written whole
to a device accepting them, and a device accepting two calls stops the write
of four bytes with -1 at the third. -/
theorem write_contract_witness :
    (0 < avr.intBits ∧ (([1, 2, 3] : List Nat).length : Int) < 2 ^ (avr.intBits - 1)) ∧
    Device.write avr (scriptDev 9) ([1, 2, 3] ++ [4]) 3 ⟨[], []⟩
      = some (3, ⟨[], [1, 2, 3]⟩) ∧
    Device.write avr (scriptDev 2) ([1, 2, 3, 4] ++ []) 4 ⟨[], []⟩
      = some (-1, ⟨[], [1, 2, 3]⟩) :=
  ⟨⟨by decide, by decide⟩,
   (write_contract avr (scriptDev 9) [1, 2, 3] [4] ⟨[], []⟩).1 (by decide) (by decide)
     (by simp [Device.accepts, scriptDev]),
   (write_contract avr (scriptDev 2) [1, 2, 3, 4] [] ⟨[], []⟩).2.1 [1, 2] 3 [4] rfl
     (by simp [Device.accepts, scriptDev]) (by simp [Device.putAll, scriptDev])⟩

/-! ### read -/

/-- C3 (the code at the failing inputs): with a signed `char` (the AVR
target) a successfully read byte 200 makes `read` return -1 although no
`getchar` failed; with an unsigned `char` a failing `getchar` goes unnoticed
and `read` returns the full count 1. -/
theorem read_compares_stored_char :
    (scriptDev 0).getResults 1 ⟨[200], []⟩ = [200] ∧
    (Device.read avr (scriptDev 0) 0 1 zeroMem ⟨[200], []⟩).1 = -1 ∧
    (scriptDev 0).getResults 1 ⟨[], []⟩ = [-1] ∧
    (Device.read { avr with charSigned := false } (scriptDev 0) 0 1 zeroMem ⟨[], []⟩).1 = 1 := by
  refine ⟨rfl, ?_, rfl, ?_⟩ <;> decide

/-! ### gets -/

theorem Mem.set_same (m : Mem) (a : Int) (v : Nat) : Mem.set m a v a = v := by
  simp [Mem.set]

theorem Mem.set_other (m : Mem) (a x : Int) (v : Nat) (h : x ≠ a) : Mem.set m a v x = m x := by
  simp [Mem.set, h]

theorem Mem.store_below (m : Mem) (a x : Int) (bs : List Nat) (h : x < a) :
    Mem.store m a bs x = m x := by
  induction bs generalizing m a with
  | nil => rfl
  | cons b bs ih =>
    rw [Mem.store, ih _ _ (by omega), Mem.set_other _ _ _ _ (by omega)]

theorem Mem.store_append (m : Mem) (a : Int) (xs ys : List Nat) :
    Mem.store m a (xs ++ ys) = Mem.store (Mem.store m a xs) (a + xs.length) ys := by
  induction xs generalizing m a with
  | nil => simp [Mem.store]
  | cons x xs ih =>
    have e : a + 1 + (xs.length : Int) = a + ((xs.length : Int) + 1) := by omega
    simp only [List.cons_append, Mem.store, List.append_eq, ih, List.length_cons, Nat.cast_add,
      Nat.cast_one, e]

theorem Mem.load_congr (m1 m2 : Mem) (a : Int) (n : Nat)
    (h : ∀ x, a ≤ x → x < a + n → m1 x = m2 x) : Mem.load m1 a n = Mem.load m2 a n := by
  induction n generalizing a with
  | zero => rfl
  | succ n ih =>
    simp only [Mem.load]
    rw [h a (le_refl _) (by push_cast; omega),
      ih (a + 1) (fun x h1 h2 => h x (by omega) (by push_cast; omega))]

theorem Mem.load_succ_last (m : Mem) (a : Int) (n : Nat) :
    Mem.load m a (n + 1) = Mem.load m a n ++ [m (a + n)] := by
  induction n generalizing a with
  | zero => simp [Mem.load]
  | succ n ih =>
    have e : a + 1 + (n : Int) = a + ((n : Int) + 1) := by omega
    rw [Mem.load, ih (a + 1)]
    simp only [Mem.load, List.cons_append, Nat.cast_add, Nat.cast_one, e]

theorem Mem.load_store (m : Mem) (a : Int) (bs : List Nat) :
    Mem.load (Mem.store m a bs) a bs.length = bs := by
  induction bs generalizing m a with
  | nil => rfl
  | cons b bs ih =>
    simp only [List.length_cons, Mem.load, Mem.store]
    rw [ih, Mem.store_below _ _ _ _ (by omega), Mem.set_same]

theorem Mem.load_store_terminated (m : Mem) (a : Int) (bs : List Nat) :
    Mem.load (Mem.set (Mem.store m a bs) (a + bs.length) 0) a (bs.length + 1) = bs ++ [0] := by
  rw [Mem.load_succ_last, Mem.set_same]
  congr 1
  rw [Mem.load_congr _ (Mem.store m a bs) a bs.length
    (fun x _ h2 => Mem.set_other _ _ _ _ (by omega))]
  exact Mem.load_store m a bs

theorem toByte_natCast (b : Nat) (h : b < 256) : toByte (b : Int) = b := by
  unfold toByte
  omega

theorem getResults_succ_last {σ : Type} (d : Device σ) (n : Nat) (st : σ) :
    d.getResults (n + 1) st = d.getResults n st ++ [(d.getchar (d.afterGets n st)).1] := by
  induction n generalizing st with
  | zero => rfl
  | succ n ih =>
    rw [Device.getResults, ih]
    rfl

theorem afterGets_succ_last {σ : Type} (d : Device σ) (n : Nat) (st : σ) :
    d.afterGets (n + 1) st = (d.getchar (d.afterGets n st)).2 := by
  induction n generalizing st with
  | zero => rfl
  | succ n ih =>
    rw [Device.afterGets, ih]
    rfl

/-- While the input delivers bytes other than newline, the loop of `gets`
stores them one after the other and goes on with the remaining count. -/
theorem getsLoop_lineBytes {σ : Type} (d : Device σ) (res : Int) (bytes : List Nat)
    (count : Nat) (s : Int) (m : Mem) (st : σ) (hb : ∀ b ∈ bytes, lineByte b)
    (hin : d.getResults bytes.length st = bytes.map Nat.cast) :
    Device.getsLoop d res (bytes.length + count) s m st
      = Device.getsLoop d res count (s + bytes.length) (Mem.store m s bytes)
          (d.afterGets bytes.length st) := by
  induction bytes generalizing s m st with
  | nil => simp [Mem.store, Device.afterGets]
  | cons b bs ih =>
    simp only [List.length_cons, Device.getResults, List.map_cons, List.cons.injEq] at hin
    obtain ⟨hlt, hne⟩ := hb b (List.mem_cons_self _ _)
    have h1 : ¬ (d.getchar st).1 < 0 := by rw [hin.1]; exact not_lt.mpr (Int.ofNat_nonneg b)
    have e : s + 1 + (bs.length : Int) = s + ((bs.length : Int) + 1) := by omega
    have h2 : ¬ (d.getchar st).1 = 10 := by
      rw [hin.1]
      exact fun h => hne (by exact_mod_cast h)
    have h3 : toByte (d.getchar st).1 = b := by rw [hin.1]; exact toByte_natCast b hlt
    rw [List.length_cons, show bs.length + 1 + count = (bs.length + count) + 1 by omega]
    simp only [Device.getsLoop, h1, h2, h3, if_false, Mem.store, Device.afterGets]
    rw [ih (s + 1) _ _ (fun x hx => hb x (List.mem_cons_of_mem _ hx)) hin.2]
    simp only [Nat.cast_add, Nat.cast_one, e]

theorem getResults_length {σ : Type} (d : Device σ) (n : Nat) (st : σ) :
    (d.getResults n st).length = n := by
  induction n generalizing st with
  | zero => rfl
  | succ n ih => simp [Device.getResults, ih]

/-- The result of `gets` on an input that delivers the bytes of a line and
then a result `c` that is negative or a newline, all within the count. -/
theorem gets_stopped {σ : Type} (d : Device σ) (s : Int) (maxCount : Nat) (m : Mem) (st : σ)
    (bytes : List Nat) (c : Int) (hk : bytes.length < maxCount) (hb : ∀ b ∈ bytes, lineByte b)
    (hin : d.getResults (bytes.length + 1) st = bytes.map Nat.cast ++ [c])
    (hc : c < 0 ∨ c = 10) :
    d.gets s maxCount m st
      = (if c < 0 then none else some s, Mem.set (Mem.store m s bytes) (s + bytes.length) 0,
          d.afterGets (bytes.length + 1) st) := by
  obtain ⟨n, rfl⟩ : ∃ n, maxCount = bytes.length + (n + 1) :=
    ⟨maxCount - bytes.length - 1, by omega⟩
  rw [getResults_succ_last] at hin
  obtain ⟨h1, h2⟩ := List.append_inj' hin rfl
  simp only [List.cons.injEq, and_true] at h2
  rw [Device.gets, getsLoop_lineBytes d s bytes (n + 1) s m st hb h1, afterGets_succ_last]
  simp only [Device.getsLoop, h2]
  rcases hc with hc | hc
  · simp [hc]
  · simp [hc]

/-- C4: for every count and every input whose first `k` results (`k` below
the count) are byte values other than newline and whose next result is a
newline, `gets` returns the buffer, the buffer then holds exactly those `k`
bytes followed by a zero terminator, and the newline has been consumed (the
device is in the state after `k + 1` reads) without being stored. -/
theorem gets_line {σ : Type} (d : Device σ) (s : Int) (maxCount : Nat) (m : Mem) (st : σ)
    (bytes : List Nat) (hk : bytes.length < maxCount) (hb : ∀ b ∈ bytes, lineByte b)
    (hin : d.getResults (bytes.length + 1) st = bytes.map Nat.cast ++ [10]) :
    (d.gets s maxCount m st).1 = some s ∧
    Mem.load (d.gets s maxCount m st).2.1 s (bytes.length + 1) = bytes ++ [0] ∧
    (d.gets s maxCount m st).2.2 = d.afterGets (bytes.length + 1) st := by
  rw [gets_stopped d s maxCount m st bytes 10 hk hb hin (Or.inr rfl)]
  exact ⟨by simp, Mem.load_store_terminated m s bytes, rfl⟩

/-- Witness for C4: the input "hi\n" read with a count of 8 into a buffer at
address 100. -/
theorem gets_line_witness :
    (([104, 105] : List Nat).length < 8 ∧ (∀ b ∈ ([104, 105] : List Nat), lineByte b) ∧
      (scriptDev 0).getResults 3 ⟨[104, 105, 10, 33], []⟩ = [104, 105, 10]) ∧
    ((scriptDev 0).gets 100 8 zeroMem ⟨[104, 105, 10, 33], []⟩).1 = some 100 ∧
    Mem.load ((scriptDev 0).gets 100 8 zeroMem ⟨[104, 105, 10, 33], []⟩).2.1 100 3
      = [104, 105, 0] ∧
    ((scriptDev 0).gets 100 8 zeroMem ⟨[104, 105, 10, 33], []⟩).2.2 = ⟨[33], []⟩ :=
  ⟨⟨by decide, by decide, by decide⟩,
   gets_line (scriptDev 0) 100 8 zeroMem ⟨[104, 105, 10, 33], []⟩ [104, 105] (by decide)
     (by decide) (by decide)⟩

theorem getsLoop_null_iff {σ : Type} (d : Device σ) (res : Int) (count : Nat) (s : Int)
    (m : Mem) (st : σ) :
    (Device.getsLoop d res count s m st).1 = none ↔
      ∃ j, j < count ∧ ∃ (pre : List Int) (c : Int),
        d.getResults (j + 1) st = pre ++ [c] ∧ (∀ r ∈ pre, 0 ≤ r ∧ r ≠ 10) ∧ c < 0 := by
  induction count generalizing s m st with
  | zero => simp [Device.getsLoop]
  | succ count ih =>
    by_cases h1 : (d.getchar st).1 < 0
    · simp only [Device.getsLoop, h1, if_true, true_iff]
      exact ⟨0, Nat.succ_pos _, [], (d.getchar st).1, rfl, by simp, h1⟩
    · by_cases h2 : (d.getchar st).1 = 10
      · rw [Device.getsLoop, if_neg h1, if_pos h2]
        simp only [reduceCtorEq, false_iff]
        rintro ⟨j, _, pre, c, hres, hpre, hc⟩
        cases pre with
        | nil =>
          simp only [Device.getResults, List.nil_append, List.cons.injEq] at hres
          omega
        | cons p ps =>
          simp only [Device.getResults, List.cons_append, List.cons.injEq] at hres
          exact (hpre p (List.mem_cons_self _ _)).2 (hres.1 ▸ h2)
      · rw [Device.getsLoop, if_neg h1, if_neg h2, ih]
        constructor
        · rintro ⟨j, hj, pre, c, hres, hpre, hc⟩
          refine ⟨j + 1, Nat.succ_lt_succ hj, (d.getchar st).1 :: pre, c, ?_, ?_, hc⟩
          · rw [Device.getResults, hres]; rfl
          · intro r hr
            rcases List.mem_cons.mp hr with rfl | hr
            · exact ⟨not_lt.mp h1, h2⟩
            · exact hpre r hr
        · rintro ⟨j, hj, pre, c, hres, hpre, hc⟩
          cases pre with
          | nil =>
            simp only [Device.getResults, List.nil_append, List.cons.injEq] at hres
            omega
          | cons p ps =>
            have hlen := congrArg List.length hres
            simp only [getResults_length, List.length_append, List.length_cons,
              List.length_nil] at hlen
            obtain ⟨j, rfl⟩ : ∃ i, j = i + 1 := ⟨ps.length, by omega⟩
            simp only [Device.getResults, List.cons_append, List.cons.injEq] at hres
            exact ⟨j, Nat.lt_of_succ_lt_succ hj, ps, c, hres.2,
              fun r hr => hpre r (List.mem_cons_of_mem _ hr), hc⟩

/-- C5: for every count of at least 1, `gets` returns the null marker if and
only if a `getchar` call fails within the count before any newline has been
read (some `j` below the count: the first `j` results are non-negative and
not newline, the next one is negative); in particular it returns the null
marker, not the buffer, when the very first `getchar` fails. -/
theorem gets_null_iff {σ : Type} (d : Device σ) (s : Int) (maxCount : Nat) (m : Mem) (st : σ)
    (h1 : 1 ≤ maxCount) :
    ((d.gets s maxCount m st).1 = none ↔
      ∃ j, j < maxCount ∧ ∃ (pre : List Int) (c : Int),
        d.getResults (j + 1) st = pre ++ [c] ∧ (∀ r ∈ pre, 0 ≤ r ∧ r ≠ 10) ∧ c < 0) ∧
    ((d.getchar st).1 < 0 → (d.gets s maxCount m st).1 = none) := by
  refine ⟨getsLoop_null_iff d s maxCount s m st, fun hfail => ?_⟩
  exact (getsLoop_null_iff d s maxCount s m st).mpr
    ⟨0, h1, [], (d.getchar st).1, rfl, by simp, hfail⟩

/-- Witness for C5: an input that is empty from the start makes `gets` with a
count of 4 return the null marker. -/
theorem gets_null_iff_witness :
    1 ≤ 4 ∧ ((scriptDev 0).getchar ⟨[], []⟩).1 < 0 ∧
    ((scriptDev 0).gets 100 4 zeroMem ⟨[], []⟩).1 = none :=
  ⟨by decide, by decide,
   (gets_null_iff (scriptDev 0) 100 4 zeroMem ⟨[], []⟩ (by decide)).2 (by decide)⟩

/-- C6 (counterexample): the input delivers the byte 97 and then fails; `gets`
with a count of 3 returns the null marker, and the first byte of the buffer
is 97, not the zero terminator. -/
theorem gets_failure_keeps_bytes :
    (scriptDev 0).getResults 2 ⟨[97], []⟩ = [97, -1] ∧
    ((scriptDev 0).gets 100 3 zeroMem ⟨[97], []⟩).1 = none ∧
    ((scriptDev 0).gets 100 3 zeroMem ⟨[97], []⟩).2.1 100 = 97 := by
  decide

/-- C6 (amended): for every count and every input on which `getchar` fails
after `j` byte values other than newline (`j` below the count), `gets`
returns the null marker and leaves in the buffer those `j` bytes followed by a
zero terminator at index `j`; the first byte of the buffer is the first byte
read, and is the zero terminator when no byte was read before the failure. -/
theorem gets_failure_terminates {σ : Type} (d : Device σ) (s : Int) (maxCount : Nat) (m : Mem)
    (st : σ) (bytes : List Nat) (c : Int) (hj : bytes.length < maxCount)
    (hb : ∀ b ∈ bytes, lineByte b)
    (hin : d.getResults (bytes.length + 1) st = bytes.map Nat.cast ++ [c]) (hc : c < 0) :
    (d.gets s maxCount m st).1 = none ∧
    Mem.load (d.gets s maxCount m st).2.1 s (bytes.length + 1) = bytes ++ [0] ∧
    (d.gets s maxCount m st).2.1 s = bytes.headD 0 := by
  rw [gets_stopped d s maxCount m st bytes c hj hb hin (Or.inl hc)]
  have hload := Mem.load_store_terminated m s bytes
  refine ⟨by simp [hc], hload, ?_⟩
  rw [Mem.load] at hload
  cases bytes with
  | nil =>
    simp only [List.nil_append, List.cons.injEq] at hload
    exact hload.1
  | cons b bs =>
    simp only [List.cons_append, List.cons.injEq] at hload
    exact hload.1

/-- Witness for C6 (amended): the input "ab" followed by a failure, read with
a count of 8. -/
theorem gets_failure_terminates_witness :
    (([97, 98] : List Nat).length < 8 ∧ (∀ b ∈ ([97, 98] : List Nat), lineByte b) ∧
      (scriptDev 0).getResults 3 ⟨[97, 98], []⟩ = [97, 98, -1] ∧ (-1 : Int) < 0) ∧
    ((scriptDev 0).gets 100 8 zeroMem ⟨[97, 98], []⟩).1 = none ∧
    Mem.load ((scriptDev 0).gets 100 8 zeroMem ⟨[97, 98], []⟩).2.1 100 3 = [97, 98, 0] ∧
    ((scriptDev 0).gets 100 8 zeroMem ⟨[97, 98], []⟩).2.1 100 = 97 :=
  ⟨⟨by decide, by decide, by decide, by decide⟩,
   gets_failure_terminates (scriptDev 0) 100 8 zeroMem ⟨[97, 98], []⟩ [97, 98] (-1) (by decide)
     (by decide) (by decide) (by decide)⟩

/-- C7: for every count of at least 1 and every input whose first `maxCount`
results are byte values none of which is a newline, `gets` returns the buffer
(not the null marker), and the buffer holds exactly the first `maxCount - 1`
of those bytes followed by a zero terminator at index `maxCount - 1`. -/
theorem gets_truncates {σ : Type} (d : Device σ) (s : Int) (maxCount : Nat) (m : Mem) (st : σ)
    (bytes : List Nat) (h1 : 1 ≤ maxCount) (hlen : bytes.length = maxCount)
    (hb : ∀ b ∈ bytes, lineByte b) (hin : d.getResults maxCount st = bytes.map Nat.cast) :
    (d.gets s maxCount m st).1 = some s ∧
    Mem.load (d.gets s maxCount m st).2.1 s maxCount = bytes.take (maxCount - 1) ++ [0] ∧
    (d.gets s maxCount m st).2.1 (s + (maxCount - 1 : Nat)) = 0 := by
  subst hlen
  have hloop := getsLoop_lineBytes d s bytes 0 s m st hb hin
  rw [Nat.add_zero] at hloop
  rw [Device.gets, hloop]
  simp only [Device.getsLoop, true_and]
  have hsplit : bytes = [] ∨ ∃ init last, bytes = init ++ [last] := by
    rcases List.eq_nil_or_concat bytes with h | ⟨init, last, h⟩
    · exact Or.inl h
    · exact Or.inr ⟨init, last, by rw [h, List.concat_eq_append]⟩
  rcases hsplit with rfl | ⟨init, last, rfl⟩
  · simp at h1
  · have e : s + ((init ++ [last]).length : Int) - 1 = s + (init.length : Int) := by
      simp only [List.length_append, List.length_cons, List.length_nil]
      push_cast
      omega
    have e2 : (init ++ [last]).length - 1 = init.length := by simp
    rw [e, e2, List.take_left]
    refine ⟨?_, Mem.set_same _ _ _⟩
    rw [List.length_append, List.length_singleton, Mem.load_succ_last, Mem.set_same]
    congr 1
    rw [Mem.load_congr _ (Mem.store m s init) s init.length (fun x _ h2 => ?_)]
    · exact Mem.load_store m s init
    · rw [Mem.set_other _ _ _ _ (by omega), Mem.store_append, Mem.store, Mem.store,
        Mem.set_other _ _ _ _ (by omega)]

/-- Witness for C7: the input "abcd" read with a count of 3 leaves "ab" and
the terminator in the buffer. -/
theorem gets_truncates_witness :
    (1 ≤ 3 ∧ ([97, 98, 99] : List Nat).length = 3 ∧
      (∀ b ∈ ([97, 98, 99] : List Nat), lineByte b) ∧
      (scriptDev 0).getResults 3 ⟨[97, 98, 99, 100], []⟩ = [97, 98, 99]) ∧
    ((scriptDev 0).gets 100 3 zeroMem ⟨[97, 98, 99, 100], []⟩).1 = some 100 ∧
    Mem.load ((scriptDev 0).gets 100 3 zeroMem ⟨[97, 98, 99, 100], []⟩).2.1 100 3
      = [97, 98, 0] ∧
    ((scriptDev 0).gets 100 3 zeroMem ⟨[97, 98, 99, 100], []⟩).2.1 102 = 0 :=
  ⟨⟨by decide, by decide, by decide, by decide⟩,
   gets_truncates (scriptDev 0) 100 3 zeroMem ⟨[97, 98, 99, 100], []⟩ [97, 98, 99] (by decide)
     (by decide) (by decide) (by decide)⟩

/-! ### Number conversion -/

theorem digitChar_ge (v : Nat) : 48 ≤ digitChar v := by
  unfold digitChar
  split <;> omega

theorem digitValue_digitChar (v : Nat) (h : v < 36) : digitValue (digitChar v) = some v := by
  unfold digitValue digitChar
  by_cases h10 : v < 10
  · simp [h10]
    omega
  · have h1 : ¬ (87 + v ≤ 57) := by omega
    have h2 : 97 ≤ 87 + v ∧ 87 + v ≤ 122 := by omega
    simp [h10, h1, h2]

theorem utoaLoop_ge (radix fuel v : Nat) : ∀ c ∈ utoaLoop radix fuel v, 48 ≤ c := by
  induction fuel generalizing v with
  | zero => simp [utoaLoop]
  | succ fuel ih =>
    intro c hc
    rw [utoaLoop, List.mem_cons] at hc
    rcases hc with rfl | hc
    · exact digitChar_ge _
    · split at hc
      · simp at hc
      · exact ih _ c hc

theorem utoaLoop_ne_nil (radix fuel v : Nat) : utoaLoop radix (fuel + 1) v ≠ [] := by
  simp [utoaLoop]

/-- A value below `radix ^ (k + 1)` has at most `k + 1` digits. -/
theorem utoaLoop_length (radix : Nat) (hr : 2 ≤ radix) (k fuel v : Nat) (hf : v < fuel)
    (hv : v < radix ^ (k + 1)) : (utoaLoop radix fuel v).length ≤ k + 1 := by
  induction k generalizing fuel v with
  | zero =>
    obtain ⟨fuel, rfl⟩ : ∃ f, fuel = f + 1 := ⟨fuel - 1, by omega⟩
    have : v / radix = 0 := Nat.div_eq_of_lt (by simpa using hv)
    simp [utoaLoop, this]
  | succ k ih =>
    obtain ⟨fuel, rfl⟩ : ∃ f, fuel = f + 1 := ⟨fuel - 1, by omega⟩
    rw [utoaLoop]
    split
    · simp
    · rename_i hq
      have hlt : v / radix < v := Nat.div_lt_self (by
        rcases Nat.eq_zero_or_pos v with h | h
        · simp [h] at hq
        · exact h) hr
      have hq' : v / radix < radix ^ (k + 1) := by
        apply Nat.div_lt_of_lt_mul
        rw [pow_succ, mul_comm] at hv
        exact hv
      have := ih fuel (v / radix) (by omega) hq'
      simp only [List.length_cons]
      omega

theorem utoaText_length (radix : Nat) (hr : 2 ≤ radix) (k v : Nat) (hv : v < radix ^ (k + 1)) :
    (utoaText v radix).length ≤ k + 1 := by
  rw [utoaText, List.length_reverse]
  exact utoaLoop_length radix hr k (v + 1) v (Nat.lt_succ_self v) hv

theorem utoaText_ge (v radix : Nat) : ∀ c ∈ utoaText v radix, 48 ≤ c := by
  intro c hc
  rw [utoaText, List.mem_reverse] at hc
  exact utoaLoop_ge _ _ _ c hc

theorem utoaText_ne_nil (v radix : Nat) : utoaText v radix ≠ [] := by
  rw [utoaText]
  simpa using utoaLoop_ne_nil radix v v

theorem parseDigits_append (radix : Nat) (xs ys : List Nat) (acc : Nat) :
    parseDigits radix (xs ++ ys) acc = (parseDigits radix xs acc).bind (parseDigits radix ys) := by
  induction xs generalizing acc with
  | nil => rfl
  | cons x xs ih =>
    simp only [List.cons_append, parseDigits]
    cases digitValue x with
    | none => rfl
    | some v =>
      simp only
      split
      · exact ih _
      · rfl

theorem parseDigits_utoaLoop (radix : Nat) (hr : 2 ≤ radix) (hr36 : radix ≤ 36) (fuel v : Nat)
    (hf : v < fuel) : parseDigits radix (utoaLoop radix fuel v).reverse 0 = some v := by
  induction fuel generalizing v with
  | zero => omega
  | succ fuel ih =>
    have hmod : v % radix < radix := Nat.mod_lt _ (by omega)
    have hlast : ∀ a,
        parseDigits radix [digitChar (v % radix)] a = some (a * radix + v % radix) := by
      intro a
      simp [parseDigits, digitValue_digitChar (v % radix) (by omega), hmod]
    rw [utoaLoop, List.reverse_cons, parseDigits_append]
    split
    · rename_i hq
      have hv : v % radix = v := Nat.mod_eq_of_lt (by
        rcases Nat.lt_or_ge v radix with h | h
        · exact h
        · have := Nat.div_pos h (by omega)
          omega)
      have h0 : parseDigits radix ([] : List Nat).reverse 0 = some 0 := rfl
      rw [h0, Option.some_bind, hlast, Nat.zero_mul, Nat.zero_add, hv]
    · rename_i hq
      have hlt : v / radix < v := Nat.div_lt_self (by
        rcases Nat.eq_zero_or_pos v with h | h
        · simp [h] at hq
        · exact h) hr
      rw [ih (v / radix) (by omega)]
      simp only [Option.some_bind, hlast, Option.some.injEq]
      rw [mul_comm]
      exact Nat.div_add_mod v radix

theorem parseNumber_utoaText (radix : Nat) (hr : 2 ≤ radix) (hr36 : radix ≤ 36) (v : Nat) :
    parseNumber radix (utoaText v radix) = some (v : Int) := by
  have hparse : parseDigits radix (utoaText v radix) 0 = some v :=
    parseDigits_utoaLoop radix hr hr36 (v + 1) v (Nat.lt_succ_self v)
  have hge := utoaText_ge v radix
  have hne := utoaText_ne_nil v radix
  cases htext : utoaText v radix with
  | nil => exact absurd htext hne
  | cons c cs =>
    rw [htext] at hparse hge
    have hc : c ≠ 45 := by
      have := hge c (List.mem_cons_self _ _)
      omega
    simp [parseNumber, hc, hparse]

theorem parseNumber_neg_utoaText (radix : Nat) (hr : 2 ≤ radix) (hr36 : radix ≤ 36) (v : Nat) :
    parseNumber radix (45 :: utoaText v radix) = some (-(v : Int)) := by
  have hparse : parseDigits radix (utoaText v radix) 0 = some v :=
    parseDigits_utoaLoop radix hr hr36 (v + 1) v (Nat.lt_succ_self v)
  simp [parseNumber, utoaText_ne_nil, hparse]

theorem printBase_bounds (base : Nat) (h : printBase base) : 2 ≤ base ∧ base ≤ 36 := by
  rcases h with rfl | rfl | rfl | rfl <;> omega

theorem emod_toNat_lt (w : Nat) (n : Int) : (n % 2 ^ w).toNat < 2 ^ w := by
  have hpos : (0 : Int) < 2 ^ w := by positivity
  have h1 := Int.emod_nonneg n (ne_of_gt hpos)
  have h2 := Int.emod_lt_of_pos n hpos
  have h3 : (((n % 2 ^ w).toNat : Nat) : Int) < ((2 ^ w : Nat) : Int) := by
    rw [Int.toNat_of_nonneg h1]
    push_cast
    exact h2
  exact_mod_cast h3

theorem utoaText_fits (w v base : Nat) (hw : 1 ≤ w) (hb : 2 ≤ base) (hv : v < 2 ^ w) :
    (utoaText v base).length + 1 ≤ w + 1 := by
  obtain ⟨k, rfl⟩ : ∃ k, w = k + 1 := ⟨w - 1, by omega⟩
  have := utoaText_length base hb k v (lt_of_lt_of_le hv (Nat.pow_le_pow_left hb _))
  omega

theorem itoaText_fits (w : Nat) (n : Int) (base : Nat) (hw : 2 ≤ w) (hb : 2 ≤ base)
    (hn : signedRange w n) : (itoaText w n base).length + 1 ≤ w + 1 := by
  unfold itoaText
  split
  · rename_i hneg
    obtain ⟨k, rfl⟩ : ∃ k, w = k + 2 := ⟨w - 2, by omega⟩
    have hpow : (2 : Nat) ^ (k + 1) < 10 ^ (k + 1) := Nat.pow_lt_pow_left (by omega) (by omega)
    have hlow : -(2 ^ (k + 1) : Int) ≤ n := by simpa [signedRange] using hn.1
    have hv : (-n).toNat < 10 ^ (k + 1) := by
      have h1 : (((-n).toNat : Nat) : Int) ≤ ((2 ^ (k + 1) : Nat) : Int) := by
        rw [Int.toNat_of_nonneg (by omega)]
        push_cast
        omega
      have h2 : (-n).toNat ≤ 2 ^ (k + 1) := by exact_mod_cast h1
      omega
    have := utoaText_length 10 (by omega) k (-n).toNat hv
    simp only [List.length_cons]
    omega
  · exact utoaText_fits w _ base (by omega) hb (emod_toNat_lt w n)

/-- C9: for each of the four integer types (width `sizeof(T) * CHARBITS` bits,
at least 2), every representable value, the minimum and maximum included, and
every base in 2, 8, 10, 16, the text of the conversion in `print(n, base)`,
with its minus sign if any, plus the zero terminator fits in the call-local
buffer of `sizeof(T) * CHARBITS + 1` characters. -/
theorem conversion_fits (t : Target) (base : Nat) (hbase : printBase base)
    (hi : 2 ≤ t.intBits) (hl : 2 ≤ t.longBits) :
    (∀ n : Int, signedRange t.intBits n →
      (itoaText t.intBits n base).length + 1 ≤ t.sizeofInt * t.CHARBITS + 1) ∧
    (∀ n : Int, signedRange t.longBits n →
      (itoaText t.longBits n base).length + 1 ≤ t.sizeofLong * t.CHARBITS + 1) ∧
    (∀ n : Nat, n < 2 ^ t.intBits →
      (utoaText n base).length + 1 ≤ t.sizeofInt * t.CHARBITS + 1) ∧
    (∀ n : Nat, n < 2 ^ t.longBits →
      (utoaText n base).length + 1 ≤ t.sizeofLong * t.CHARBITS + 1) := by
  have hb := (printBase_bounds base hbase).1
  exact ⟨fun n hn => itoaText_fits _ n base hi hb hn, fun n hn => itoaText_fits _ n base hl hb hn,
    fun n hn => utoaText_fits _ n base (le_trans (by decide) hi) hb hn,
    fun n hn => utoaText_fits _ n base (le_trans (by decide) hl) hb hn⟩

/-- Witness for C9 on the AVR target: the binary text of the smallest `int`
takes 16 characters, which with the terminator fill the 17-character buffer
exactly. -/
theorem conversion_fits_witness :
    (printBase 2 ∧ 2 ≤ avr.intBits ∧ 2 ≤ avr.longBits ∧ signedRange avr.intBits (-32768)) ∧
    (itoaText avr.intBits (-32768) 2).length + 1 ≤ avr.sizeofInt * avr.CHARBITS + 1 :=
  ⟨⟨by decide, by decide, by decide, by decide⟩,
   (conversion_fits avr 2 (by decide) (by decide) (by decide)).1 (-32768) (by decide)⟩

theorem itoaText_ne_zero (w : Nat) (n : Int) (base : Nat) : ∀ c ∈ itoaText w n base, c ≠ 0 := by
  intro c hc
  unfold itoaText at hc
  split at hc
  · rcases List.mem_cons.mp hc with rfl | hc
    · decide
    · have := utoaText_ge _ _ c hc
      omega
  · have := utoaText_ge _ _ c hc
    omega

theorem utoaText_ne_zero (v base : Nat) : ∀ c ∈ utoaText v base, c ≠ 0 := by
  intro c hc
  have := utoaText_ge _ _ c hc
  omega

/-! ### The print family -/

theorem print_str_accepted {σ : Type} (d : Device σ) (outs : IOStream σ) (text junk : List Nat)
    (h0 : ∀ c ∈ text, c ≠ 0) (hacc : d.accepts text outs.dev) :
    IOStream.print_str d outs (text ++ 0 :: junk)
      = some { outs with dev := d.putAll text outs.dev } := by
  rw [IOStream.print_str, puts_accepted d text junk outs.dev h0 hacc]
  rfl

theorem print_P_accepted {σ : Type} (d : Device σ) (outs : IOStream σ) (text junk : List Nat)
    (h0 : ∀ c ∈ text, c ≠ 0) (hacc : d.accepts text outs.dev) :
    IOStream.print_P d outs (text ++ 0 :: junk)
      = some { outs with dev := d.putAll text outs.dev } := by
  rw [IOStream.print_P, puts_P_eq_puts, puts_accepted d text junk outs.dev h0 hacc]
  rfl

theorem print_prefix_accepted {σ : Type} (d : Device σ) (outs : IOStream σ) (base : Nat)
    (hbase : printBase base) (hacc : d.accepts (basePrefix base) outs.dev) :
    (if base ≠ 10 then IOStream.print_prefix d outs base else some outs)
      = some { outs with dev := d.putAll (basePrefix base) outs.dev } := by
  rcases hbase with rfl | rfl | rfl | rfl
  · exact print_P_accepted d outs [48, 98] [] (by decide) hacc
  · exact print_P_accepted d outs [48] [] (by decide) hacc
  · rfl
  · exact print_P_accepted d outs [48, 120] [] (by decide) hacc

/-- The common body of the four integer `print` overloads on a Device that
accepts the bytes: prefix, conversion into the local buffer, string write. -/
theorem print_text_accepted {σ : Type} (d : Device σ) (outs : IOStream σ) (base : Nat)
    (text : List Nat) (cap : Nat) (hbase : printBase base) (h0 : ∀ c ∈ text, c ≠ 0)
    (hfit : text.length + 1 ≤ cap) (hacc : d.accepts (basePrefix base ++ text) outs.dev) :
    ((if base ≠ 10 then IOStream.print_prefix d outs base else some outs).bind fun outs1 =>
      (storeText text (localBuf cap)).bind fun buf => IOStream.print_str d outs1 buf)
      = some { outs with dev := d.putAll (basePrefix base ++ text) outs.dev } := by
  rw [accepts_append] at hacc
  have hcap : text.length + 1 ≤ (localBuf cap).length := by simpa [localBuf] using hfit
  rw [print_prefix_accepted d outs base hbase hacc.1, Option.some_bind, storeText, if_pos hcap,
    Option.some_bind, print_str_accepted d _ text _ h0 hacc.2, putAll_append]

/-- C8: for every base in 2, 8, 10, 16 and every value of each of the four
integer types, `print(n, base)` on a Device that accepts the bytes passes to
`putchar` exactly the base prefix followed by the digit text of `n` in that
base, in this order; the prefix is "0b" for base 2, "0" for base 8, "0x" for
base 16 and empty for base 10. -/
theorem print_sends_prefix_then_digits {σ : Type} (t : Target) (d : Device σ)
    (outs : IOStream σ) (base : Nat) (hbase : printBase base) (hi : 2 ≤ t.intBits)
    (hl : 2 ≤ t.longBits) :
    (∀ n : Int, signedRange t.intBits n →
      d.accepts (basePrefix base ++ itoaText t.intBits n base) outs.dev →
      IOStream.print_int t d outs n base
        = some
          { outs with dev := d.putAll (basePrefix base ++ itoaText t.intBits n base) outs.dev }) ∧
    (∀ n : Int, signedRange t.longBits n →
      d.accepts (basePrefix base ++ itoaText t.longBits n base) outs.dev →
      IOStream.print_long t d outs n base
        = some
          { outs with dev := d.putAll (basePrefix base ++ itoaText t.longBits n base) outs.dev }) ∧
    (∀ n : Nat, n < 2 ^ t.intBits →
      d.accepts (basePrefix base ++ utoaText n base) outs.dev →
      IOStream.print_uint t d outs n base
        = some { outs with dev := d.putAll (basePrefix base ++ utoaText n base) outs.dev }) ∧
    (∀ n : Nat, n < 2 ^ t.longBits →
      d.accepts (basePrefix base ++ utoaText n base) outs.dev →
      IOStream.print_ulong t d outs n base
        = some { outs with dev := d.putAll (basePrefix base ++ utoaText n base) outs.dev }) ∧
    (basePrefix 2 = [48, 98] ∧ basePrefix 8 = [48] ∧ basePrefix 16 = [48, 120] ∧
      basePrefix 10 = []) := by
  have hb := (printBase_bounds base hbase).1
  refine ⟨fun n hn hacc => ?_, fun n hn hacc => ?_, fun n hn hacc => ?_, fun n hn hacc => ?_,
    by decide⟩
  · exact print_text_accepted d outs base _ _ hbase (itoaText_ne_zero _ _ _)
      (itoaText_fits _ n base hi hb hn) hacc
  · exact print_text_accepted d outs base _ _ hbase (itoaText_ne_zero _ _ _)
      (itoaText_fits _ n base hl hb hn) hacc
  · exact print_text_accepted d outs base _ _ hbase (utoaText_ne_zero _ _)
      (utoaText_fits _ n base (le_trans (by decide) hi) hb hn) hacc
  · exact print_text_accepted d outs base _ _ hbase (utoaText_ne_zero _ _)
      (utoaText_fits _ n base (le_trans (by decide) hl) hb hn) hacc

/-- Witness for C8 on the AVR target: printing the `int` 10 in base 16 on the
recording device sends "0xa". -/
theorem print_sends_prefix_then_digits_witness :
    (printBase 16 ∧ 2 ≤ avr.intBits ∧ 2 ≤ avr.longBits ∧ signedRange avr.intBits 10 ∧
      (scriptDev 9).accepts (basePrefix 16 ++ itoaText avr.intBits 10 16) ⟨[], []⟩) ∧
    IOStream.print_int avr (scriptDev 9) ⟨⟨[], []⟩, 10⟩ 10 16
      = some ⟨⟨[], [48, 120, 97]⟩, 10⟩ :=
  ⟨⟨by decide, by decide, by decide, by decide, scriptDev_accepts _ _ _ (by decide)⟩,
   (print_sends_prefix_then_digits avr (scriptDev 9) ⟨⟨[], []⟩, 10⟩ 16 (by decide) (by decide)
     (by decide)).1 10 (by decide) (scriptDev_accepts _ _ _ (by decide))⟩

/-! ### Round trip -/

/-- C10 (counterexample): on the AVR target `print(-1, 16)` for an `int` sends
"0xffff"; its digit text "ffff" read as a number in base 16 is 65535, not
-1. -/
theorem print_negative_hex_parses_unsigned :
    signedRange avr.intBits (-1) ∧
    (IOStream.print_int avr (scriptDev 9) ⟨⟨[], []⟩, 10⟩ (-1) 16).map (fun o => o.dev.calls)
      = some (basePrefix 16 ++ [102, 102, 102, 102]) ∧
    itoaText avr.intBits (-1) 16 = [102, 102, 102, 102] ∧
    parseNumber 16 (itoaText avr.intBits (-1) 16) = some 65535 ∧
    parseNumber 16 (itoaText avr.intBits (-1) 16) ≠ some (-1) := by
  decide

theorem emod_two_pow_of_nonneg (w : Nat) (n : Int) (hn : signedRange w n) (h0 : 0 ≤ n) :
    n % 2 ^ w = n := by
  have hle : (2 : Int) ^ (w - 1) ≤ 2 ^ w := pow_le_pow_right₀ (by norm_num) (Nat.sub_le w 1)
  exact Int.emod_eq_of_lt h0 (lt_of_lt_of_le hn.2 hle)

theorem emod_two_pow_of_neg (w : Nat) (n : Int) (hw : 1 ≤ w) (hn : signedRange w n)
    (h0 : n < 0) : n % 2 ^ w = n + 2 ^ w := by
  have h2 : (2 : Int) ^ w = 2 * 2 ^ (w - 1) := by
    obtain ⟨k, rfl⟩ : ∃ k, w = k + 1 := ⟨w - 1, by omega⟩
    simp [pow_succ, mul_comm]
  have hpos : (0 : Int) < 2 ^ (w - 1) := by positivity
  have hlow := hn.1
  rw [← Int.add_emod_self]
  exact Int.emod_eq_of_lt (by omega) (by omega)

/-- C10 (amended): for every base in 2, 8, 10, 16, reading the digit text of
`print(n, base)` as a number in that base yields `n` itself for every value of
the unsigned types, and for every value of a signed type that is not negative
or is printed in base 10; for a negative value of a signed type of `w` bits
in base 2, 8 or 16 the text is that of the unsigned number with the same
bits, and reading it yields `n + 2 ^ w`. -/
theorem print_parse_roundtrip (base : Nat) (hbase : printBase base) :
    (∀ n : Nat, parseNumber base (utoaText n base) = some (n : Int)) ∧
    (∀ (w : Nat) (n : Int), signedRange w n → 0 ≤ n ∨ base = 10 →
      parseNumber base (itoaText w n base) = some n) ∧
    (∀ (w : Nat) (n : Int), 1 ≤ w → signedRange w n → n < 0 → base ≠ 10 →
      parseNumber base (itoaText w n base) = some (n + 2 ^ w)) := by
  obtain ⟨hb2, hb36⟩ := printBase_bounds base hbase
  refine ⟨parseNumber_utoaText base hb2 hb36, fun w n hn hcase => ?_,
    fun w n hw hn hneg hb10 => ?_⟩
  · unfold itoaText
    split
    · rename_i h
      obtain ⟨rfl, hneg⟩ := h
      rw [parseNumber_neg_utoaText 10 hb2 hb36, Int.toNat_of_nonneg (by omega)]
      simp
    · rename_i h
      have h0 : 0 ≤ n := by
        rcases hcase with h0 | h10
        · exact h0
        · by_contra hlt
          exact h ⟨h10, not_le.mp hlt⟩
      rw [emod_two_pow_of_nonneg w n hn h0, parseNumber_utoaText base hb2 hb36,
        Int.toNat_of_nonneg h0]
  · unfold itoaText
    rw [if_neg (fun h => hb10 h.1), emod_two_pow_of_neg w n hw hn hneg,
      parseNumber_utoaText base hb2 hb36, Int.toNat_of_nonneg]
    have hpos : (0 : Int) < 2 ^ (w - 1) := by positivity
    have h2 : (2 : Int) ^ w = 2 * 2 ^ (w - 1) := by
      obtain ⟨k, rfl⟩ : ∃ k, w = k + 1 := ⟨w - 1, by omega⟩
      simp [pow_succ, mul_comm]
    have hlow := hn.1
    omega

/-- Witness for C10 (amended) at 16 bits: the decimal text of -32768 reads
back as -32768, and the hexadecimal text of -1 reads as -1 + 65536. -/
theorem print_parse_roundtrip_witness :
    (printBase 10 ∧ signedRange 16 (-32768) ∧ printBase 16 ∧ 1 ≤ 16 ∧ signedRange 16 (-1) ∧
      (-1 : Int) < 0 ∧ 16 ≠ 10) ∧
    parseNumber 10 (itoaText 16 (-32768) 10) = some (-32768) ∧
    parseNumber 16 (itoaText 16 (-1) 16) = some (-1 + 2 ^ 16) :=
  ⟨⟨by decide, by decide, by decide, by decide, by decide, by decide, by decide⟩,
   (print_parse_roundtrip 10 (by decide)).2.1 16 (-32768) (by decide) (Or.inr rfl),
   (print_parse_roundtrip 16 (by decide)).2.2 16 (-1) (by decide) (by decide) (by decide)
     (by decide)⟩

/-! ### Manipulators -/

/-- C17: each manipulator yields the stream it was given: `bin`, `oct`, `dec`
and `hex` set its base to 2, 8, 10 and 16 and leave the Device untouched
(nothing is emitted); `endl` passes exactly one line-feed character (10) to
`putchar` of the Device and leaves the base unchanged. -/
theorem manipulators_contract {σ : Type} (d : Device σ) (outs : IOStream σ) :
    (bin outs = { dev := outs.dev, m_base := 2 } ∧ oct outs = { dev := outs.dev, m_base := 8 } ∧
      dec outs = { dev := outs.dev, m_base := 10 } ∧
      hex outs = { dev := outs.dev, m_base := 16 }) ∧
    (endl d outs).dev = d.putAll [10] outs.dev ∧
    (endl d outs).dev = (d.putchar 10 outs.dev).2 ∧
    (endl d outs).m_base = outs.m_base :=
  ⟨⟨rfl, rfl, rfl, rfl⟩, rfl, rfl, rfl⟩

/-! ### The null Device -/

/-- C19 (counterexample): on the null Device `puts` and `puts_P` of the empty
string and `write` and `read` of size 0 report success (0), since no byte is
passed to `putchar` or asked from `getchar`. -/
theorem null_device_empty_succeeds :
    (Device.null Unit).puts [0] () = some (0, ()) ∧
    (Device.null Unit).puts_P [0] () = some (0, ()) ∧
    Device.write avr (Device.null Unit) [] 0 () = some (0, ()) ∧
    (Device.read avr (Device.null Unit) 100 0 zeroMem ()).1 = 0 := by
  decide

theorem null_readLoop_fails {σ : Type} (t : Target) (hs : t.charSigned = true) (k : Nat)
    (ptr : Int) (n : Nat) (m : Mem) (st : σ) :
    Device.readLoop t (Device.null σ) (k + 1) ptr n m st = (-1, Mem.set m ptr 255, st) := by
  have h : charValue t (toByte (-1)) < 0 := by
    have e : toByte (-1) = 255 := by decide
    rw [e, charValue, hs]
    decide
  rw [Device.readLoop]
  exact if_pos h

/-- C19 (amended): on the null Device `putchar`, `getchar` and `flush` return
-1 for every argument; `puts` and `puts_P` return -1 for every non-empty
string, `write` returns -1 for every size of at least 1, `read` returns -1
for every size of at least 1 where plain `char` is signed, and `gets` returns
the null marker for every count of at least 1. -/
theorem null_device_fails {σ : Type} (t : Target) (st : σ) :
    ((∀ c, (Device.null σ).putchar c st = (-1, st)) ∧ (Device.null σ).getchar st = (-1, st) ∧
      (Device.null σ).flush st = (-1, st)) ∧
    (∀ (c : Nat) (s : List Nat), c ≠ 0 →
      (Device.null σ).puts (c :: s) st = some (-1, st) ∧
      (Device.null σ).puts_P (c :: s) st = some (-1, st)) ∧
    (∀ (c : Nat) (buf : List Nat) (size : Nat), 1 ≤ size →
      Device.write t (Device.null σ) (c :: buf) size st = some (-1, st)) ∧
    (∀ (buf : Int) (size : Nat) (m : Mem), 1 ≤ size → t.charSigned = true →
      (Device.read t (Device.null σ) buf size m st).1 = -1) ∧
    (∀ (s : Int) (maxCount : Nat) (m : Mem), 1 ≤ maxCount →
      ((Device.null σ).gets s maxCount m st).1 = none) := by
  refine ⟨⟨fun _ => rfl, rfl, rfl⟩, fun c s hc => ?_, fun c buf size hsize => ?_,
    fun buf size m hsize hs => ?_, fun s maxCount m hcount => ?_⟩
  · simp [Device.puts, Device.puts_P, Device.null, hc]
  · obtain ⟨k, rfl⟩ : ∃ k, size = k + 1 := ⟨size - 1, by omega⟩
    simp [Device.write, Device.writeLoop, Device.null]
  · obtain ⟨k, rfl⟩ : ∃ k, size = k + 1 := ⟨size - 1, by omega⟩
    rw [Device.read, null_readLoop_fails t hs]
  · obtain ⟨k, rfl⟩ : ∃ k, maxCount = k + 1 := ⟨maxCount - 1, by omega⟩
    simp [Device.gets, Device.getsLoop, Device.null]

/-- Witness for C19 (amended) on the AVR target: the string "a", a write and
a read of one byte and a `gets` with a count of 1, all on the null Device. -/
theorem null_device_fails_witness :
    ((97 : Nat) ≠ 0 ∧ 1 ≤ 1 ∧ avr.charSigned = true) ∧
    ((Device.null Unit).puts (97 :: [0]) () = some (-1, ()) ∧
      (Device.null Unit).puts_P (97 :: [0]) () = some (-1, ())) ∧
    Device.write avr (Device.null Unit) (97 :: []) 1 () = some (-1, ()) ∧
    (Device.read avr (Device.null Unit) 100 1 zeroMem ()).1 = -1 ∧
    ((Device.null Unit).gets 100 1 zeroMem ()).1 = none :=
  ⟨⟨by decide, by decide, rfl⟩,
   (null_device_fails avr ()).2.1 97 [0] (by decide),
   (null_device_fails avr ()).2.2.1 97 [] 1 (by decide),
   (null_device_fails avr ()).2.2.2.1 100 1 zeroMem (by decide) rfl,
   (null_device_fails avr ()).2.2.2.2 100 1 zeroMem (by decide)⟩

/-! ### The number of reads of gets -/

/-- On `maxCount` bytes without a newline `gets` makes `maxCount` calls of
`getchar`. -/
theorem getsLoop_state_lineBytes {σ : Type} (d : Device σ) (s : Int) (m : Mem) (st : σ)
    (bytes : List Nat) (hb : ∀ b ∈ bytes, lineByte b)
    (hin : d.getResults bytes.length st = bytes.map Nat.cast) :
    (d.gets s bytes.length m st).2.2 = d.afterGets bytes.length st := by
  have hloop := getsLoop_lineBytes d s bytes 0 s m st hb hin
  rw [Nat.add_zero] at hloop
  rw [Device.gets, hloop]
  rfl

/-- C20 (the code at the failing input): with a count of 3 and the input
"abcd", `gets` leaves the Device in the state after three `getchar` calls,
with only "d" pending: the third byte has been read and dropped, where the
claim has two calls and "cd" left. -/
theorem gets_reads_count_bytes :
    ((scriptDev 0).gets 100 3 zeroMem ⟨[97, 98, 99, 100], []⟩).2.2 = ⟨[100], []⟩ ∧
    (scriptDev 0).afterGets 3 ⟨[97, 98, 99, 100], []⟩ = ⟨[100], []⟩ ∧
    (scriptDev 0).afterGets (3 - 1) ⟨[97, 98, 99, 100], []⟩ = ⟨[99, 100], []⟩ ∧
    Mem.load ((scriptDev 0).gets 100 3 zeroMem ⟨[97, 98, 99, 100], []⟩).2.1 100 3
      = [97, 98, 0] := by
  decide

/-! ### The format interpreter -/

theorem lastBase_cons (b c : Nat) (mods : List Nat) :
    lastBase b (c :: mods) = lastBase ((modifierBase c).getD b) mods := by
  unfold lastBase
  rw [List.filterMap_cons]
  cases modifierBase c with
  | none => rfl
  | some x =>
    simp only [List.getLast?_cons, Option.getD_some]

/-- The modifier characters of a directive: each sets the base or clears the
signedness and the scan stays at the label `next`. -/
theorem vprintfLoop_mods {σ : Type} (t : Target) (d : Device σ) (mods s : List Nat)
    (hm : ∀ c ∈ mods, isModifier c) (sg : Bool) (b : Nat) (args : List Arg) (outs : IOStream σ) :
    IOStream.vprintfLoop t d (mods ++ s) (some (sg, b)) args outs
      = IOStream.vprintfLoop t d s (some (sg && directiveSigned mods, lastBase b mods)) args
          outs := by
  induction mods generalizing sg b with
  | nil => simp [directiveSigned, lastBase]
  | cons c mods ih =>
    have hrest : ∀ x ∈ mods, isModifier x := fun x hx => hm x (List.mem_cons_of_mem _ hx)
    rw [lastBase_cons]
    rcases hm c (List.mem_cons_self _ _) with rfl | rfl | rfl | rfl | rfl
    · rw [List.cons_append, IOStream.vprintfLoop]
      simp only [Nat.reduceEqDiff, if_false, if_true]
      rw [ih hrest]
      simp [directiveSigned, modifierBase]
    · rw [List.cons_append, IOStream.vprintfLoop]
      simp only [Nat.reduceEqDiff, if_false, if_true]
      rw [ih hrest]
      simp [directiveSigned, modifierBase]
    · rw [List.cons_append, IOStream.vprintfLoop]
      simp only [Nat.reduceEqDiff, if_false, if_true, true_or]
      rw [ih hrest]
      simp [directiveSigned, modifierBase]
    · rw [List.cons_append, IOStream.vprintfLoop]
      simp only [Nat.reduceEqDiff, if_false, if_true, or_true]
      rw [ih hrest]
      simp [directiveSigned, modifierBase]
    · rw [List.cons_append, IOStream.vprintfLoop]
      simp only [Nat.reduceEqDiff, if_false, if_true, or_self]
      rw [ih hrest]
      simp [directiveSigned, modifierBase]

/-- A conversion character ends the directive with its conversion case. -/
theorem vprintfLoop_conv {σ : Type} (t : Target) (d : Device σ) (c : Nat) (s : List Nat)
    (hc : isConversion c) (sg : Bool) (b : Nat) (args : List Arg) (outs : IOStream σ) :
    IOStream.vprintfLoop t d (c :: s) (some (sg, b)) args outs
      = (IOStream.convert t d c sg b args outs).bind fun r =>
          IOStream.vprintfLoop t d s none r.1 r.2 := by
  rw [IOStream.vprintfLoop]
  rcases hc with rfl | rfl | rfl | rfl | rfl | rfl <;>
    simp [isConversion]

/-- Any other character, the terminator apart, ends the directive and is
printed. -/
theorem vprintfLoop_other {σ : Type} (t : Target) (d : Device σ) (c : Nat) (s : List Nat)
    (h0 : c ≠ 0) (hm : ¬ isModifier c) (hc : ¬ isConversion c) (sg : Bool) (b : Nat)
    (args : List Arg) (outs : IOStream σ) :
    IOStream.vprintfLoop t d (c :: s) (some (sg, b)) args outs
      = IOStream.vprintfLoop t d s none args (IOStream.print_char d outs c) := by
  simp only [isModifier, not_or] at hm
  obtain ⟨h1, h2, h3, h4, h5⟩ := hm
  rw [IOStream.vprintfLoop]
  simp [h0, h1, h2, h3, h4, h5, hc]

/-- A percent sign starts a directive with signed conversion and base 10. -/
theorem vprintfLoop_percent {σ : Type} (t : Target) (d : Device σ) (s : List Nat)
    (args : List Arg) (outs : IOStream σ) :
    IOStream.vprintfLoop t d (37 :: s) none args outs
      = IOStream.vprintfLoop t d s (some (true, 10)) args outs := by
  rw [IOStream.vprintfLoop]
  simp

/-- A whole directive: percent sign, modifiers, conversion character. -/
theorem vprintfLoop_directive {σ : Type} (t : Target) (d : Device σ) (mods : List Nat)
    (c : Nat) (s : List Nat) (hm : ∀ x ∈ mods, isModifier x) (hc : isConversion c)
    (args : List Arg) (outs : IOStream σ) :
    IOStream.vprintfLoop t d (37 :: mods ++ c :: s) none args outs
      = (IOStream.convert t d c (directiveSigned mods) (directiveBase mods) args outs).bind
          fun r => IOStream.vprintfLoop t d s none r.1 r.2 := by
  rw [List.cons_append, vprintfLoop_percent, vprintfLoop_mods t d mods _ hm,
    vprintfLoop_conv t d c s hc, Bool.true_and]
  rfl

theorem lastBase_of_none (b : Nat) (mods : List Nat) (h : ∀ c ∈ mods, modifierBase c = none) :
    lastBase b mods = b := by
  induction mods generalizing b with
  | nil => rfl
  | cons c mods ih =>
    rw [lastBase_cons, h c (List.mem_cons_self _ _)]
    exact ih b (fun x hx => h x (List.mem_cons_of_mem _ hx))

theorem lastBase_append_cons (b c x : Nat) (pre post : List Nat) (hc : modifierBase c = some x)
    (hpost : ∀ y ∈ post, modifierBase y = none) : lastBase b (pre ++ c :: post) = x := by
  induction pre generalizing b with
  | nil =>
    rw [List.nil_append, lastBase_cons, hc]
    exact lastBase_of_none x post hpost
  | cons p pre ih => rw [List.cons_append, lastBase_cons, ih]

theorem directiveSigned_eq_false_iff (mods : List Nat) :
    directiveSigned mods = false ↔ 117 ∈ mods := by
  simp [directiveSigned]

/-- C14: a directive made of a percent sign, modifier characters `mods` and
`d` (or `l`) emits exactly what `print(n, base)` emits for the consumed
argument `n` and goes on with the rest of the format: the `int` (`long int`)
overload when `u` is not among the modifiers, the unsigned overload if it is,
with base 10 when there is no base modifier and otherwise the base of the
last one (`b` 2, `o` 8, `h` and `x` 16).  Every percent sign starts from
signed and base 10, whatever came before. -/
theorem directive_prints_like_print {σ : Type} (t : Target) (d : Device σ) (mods s : List Nat)
    (hm : ∀ x ∈ mods, isModifier x) (args : List Arg) (outs : IOStream σ) :
    ((∀ n : Int, 117 ∉ mods →
        IOStream.vprintf_P t d outs (37 :: mods ++ 100 :: s) (Arg.int n :: args)
          = (IOStream.print_int t d outs n (directiveBase mods)).bind fun o =>
              IOStream.vprintf_P t d o s args) ∧
      (∀ n : Nat, 117 ∈ mods →
        IOStream.vprintf_P t d outs (37 :: mods ++ 100 :: s) (Arg.uint n :: args)
          = (IOStream.print_uint t d outs n (directiveBase mods)).bind fun o =>
              IOStream.vprintf_P t d o s args) ∧
      (∀ n : Int, 117 ∉ mods →
        IOStream.vprintf_P t d outs (37 :: mods ++ 108 :: s) (Arg.long n :: args)
          = (IOStream.print_long t d outs n (directiveBase mods)).bind fun o =>
              IOStream.vprintf_P t d o s args) ∧
      (∀ n : Nat, 117 ∈ mods →
        IOStream.vprintf_P t d outs (37 :: mods ++ 108 :: s) (Arg.ulong n :: args)
          = (IOStream.print_ulong t d outs n (directiveBase mods)).bind fun o =>
              IOStream.vprintf_P t d o s args)) ∧
    ((∀ c ∈ mods, modifierBase c = none) → directiveBase mods = 10) ∧
    (∀ (pre post : List Nat) (c b : Nat), mods = pre ++ c :: post → modifierBase c = some b →
      (∀ y ∈ post, modifierBase y = none) → directiveBase mods = b) ∧
    (modifierBase 98 = some 2 ∧ modifierBase 111 = some 8 ∧ modifierBase 104 = some 16 ∧
      modifierBase 120 = some 16 ∧ modifierBase 117 = none) ∧
    IOStream.vprintf_P t d outs (37 :: s) args
      = IOStream.vprintfLoop t d s (some (true, 10)) args outs := by
  have hsig : 117 ∉ mods → directiveSigned mods = true := fun h => by
    cases hs : directiveSigned mods with
    | true => rfl
    | false => exact absurd ((directiveSigned_eq_false_iff mods).mp hs) h
  have hdir := fun c hc args => vprintfLoop_directive t d mods c s hm hc args outs
  refine ⟨⟨fun n hu => ?_, fun n hu => ?_, fun n hu => ?_, fun n hu => ?_⟩,
    fun h => lastBase_of_none 10 mods h,
    fun pre post c b hsplit hc hpost => hsplit ▸ lastBase_append_cons 10 c b pre post hc hpost,
    by decide, vprintfLoop_percent t d s args outs⟩
  · rw [IOStream.vprintf_P, hdir 100 (by decide), hsig hu]
    simp only [IOStream.convert, Nat.reduceEqDiff, if_false, if_true]
    cases IOStream.print_int t d outs n (directiveBase mods) <;> rfl
  · rw [IOStream.vprintf_P, hdir 100 (by decide), (directiveSigned_eq_false_iff mods).mpr hu]
    simp only [IOStream.convert, Nat.reduceEqDiff, if_false, if_true, Bool.false_eq_true]
    cases IOStream.print_uint t d outs n (directiveBase mods) <;> rfl
  · rw [IOStream.vprintf_P, hdir 108 (by decide), hsig hu]
    simp only [IOStream.convert, Nat.reduceEqDiff, if_false, if_true]
    cases IOStream.print_long t d outs n (directiveBase mods) <;> rfl
  · rw [IOStream.vprintf_P, hdir 108 (by decide), (directiveSigned_eq_false_iff mods).mpr hu]
    simp only [IOStream.convert, Nat.reduceEqDiff, if_false, if_true, Bool.false_eq_true]
    cases IOStream.print_ulong t d outs n (directiveBase mods) <;> rfl

/-- Witness for C14 on the AVR target: in the format "%uxd%d" the first
directive prints its argument as `unsigned int` in base 16 and the scan goes
on with "%d". -/
theorem directive_prints_like_print_witness :
    ((∀ x ∈ [117, 120], isModifier x) ∧ 117 ∈ [117, 120]) ∧
    IOStream.vprintf_P avr (scriptDev 99) ⟨⟨[], []⟩, 10⟩ (37 :: [117, 120] ++ 100 :: [37, 100, 0])
        (Arg.uint 255 :: [Arg.int 7])
      = (IOStream.print_uint avr (scriptDev 99) ⟨⟨[], []⟩, 10⟩ 255 (directiveBase [117, 120])).bind
          fun o => IOStream.vprintf_P avr (scriptDev 99) o [37, 100, 0] [Arg.int 7] :=
  ⟨⟨by decide, by decide⟩,
   (directive_prints_like_print avr (scriptDev 99) [117, 120] [37, 100, 0] (by decide)
     [Arg.int 7] ⟨⟨[], []⟩, 10⟩).1.2.1 255 (by decide)⟩

/-- C15 (counterexample): the format "%z" with one argument: `z` is neither a
modifier nor a conversion character, no argument is consumed, and the
character `z` is emitted. -/
theorem unknown_directive_char_is_printed :
    ¬ isModifier 122 ∧ ¬ isConversion 122 ∧
    (IOStream.vprintf_P avr (scriptDev 9) ⟨⟨[], []⟩, 10⟩ [37, 122, 0] [Arg.int 7]).map
        (fun r => (r.1, r.2.dev.calls))
      = some ([Arg.int 7], [122]) := by
  decide

/-- C15 (amended): a directive in which the percent sign and any modifiers
are followed by a character that is neither a modifier nor a conversion
character and is not the end of the format string ends without consuming any
variadic argument, and that character itself is printed (so "%%" prints a
percent sign); the scan then goes on with the rest of the format.  A
directive cut short by the end of the format string consumes no argument
either. -/
theorem directive_other_char {σ : Type} (t : Target) (d : Device σ) (mods s : List Nat)
    (hm : ∀ x ∈ mods, isModifier x) (args : List Arg) (outs : IOStream σ) :
    (∀ c : Nat, c ≠ 0 → ¬ isModifier c → ¬ isConversion c →
      IOStream.vprintf_P t d outs (37 :: mods ++ c :: s) args
        = IOStream.vprintf_P t d (IOStream.print_char d outs c) s args) ∧
    (IOStream.vprintf_P t d outs (37 :: mods ++ 0 :: s) args).map Prod.fst = some args := by
  refine ⟨fun c h0 hcm hcc => ?_, ?_⟩
  · rw [IOStream.vprintf_P, List.cons_append, vprintfLoop_percent,
      vprintfLoop_mods t d mods _ hm, vprintfLoop_other t d c s h0 hcm hcc]
    rfl
  · rw [IOStream.vprintf_P, List.cons_append, vprintfLoop_percent,
      vprintfLoop_mods t d mods _ hm, IOStream.vprintfLoop]
    rfl

/-- Witness for C15 (amended) on the recording device: "%x%" prints a percent
sign and leaves the argument, and "%x" at the end of the format leaves the
argument. -/
theorem directive_other_char_witness :
    ((∀ x ∈ [120], isModifier x) ∧ (37 : Nat) ≠ 0 ∧ ¬ isModifier 37 ∧ ¬ isConversion 37) ∧
    IOStream.vprintf_P avr (scriptDev 9) ⟨⟨[], []⟩, 10⟩ (37 :: [120] ++ 37 :: [0]) [Arg.int 7]
      = IOStream.vprintf_P avr (scriptDev 9)
          (IOStream.print_char (scriptDev 9) ⟨⟨[], []⟩, 10⟩ 37) [0] [Arg.int 7] ∧
    (IOStream.vprintf_P avr (scriptDev 9) ⟨⟨[], []⟩, 10⟩ (37 :: [120] ++ 0 :: []) [Arg.int 7]).map
        Prod.fst = some [Arg.int 7] :=
  ⟨⟨by decide, by decide, by decide, by decide⟩,
   (directive_other_char avr (scriptDev 9) [120] [0] (by decide) [Arg.int 7]
     ⟨⟨[], []⟩, 10⟩).1 37 (by decide) (by decide) (by decide),
   (directive_other_char avr (scriptDev 9) [120] [] (by decide) [Arg.int 7] ⟨⟨[], []⟩, 10⟩).2⟩

/-- Plain characters, neither a percent sign nor the terminator, are passed
to `putchar` one by one. -/
theorem vprintfLoop_plain {σ : Type} (t : Target) (d : Device σ) (plain s : List Nat)
    (hp : ∀ c ∈ plain, c ≠ 0 ∧ c ≠ 37) (args : List Arg) (outs : IOStream σ) :
    IOStream.vprintfLoop t d (plain ++ s) none args outs
      = IOStream.vprintfLoop t d s none args { outs with dev := d.putAll plain outs.dev } := by
  induction plain generalizing outs with
  | nil => rfl
  | cons c plain ih =>
    obtain ⟨h0, h37⟩ := hp c (List.mem_cons_self _ _)
    rw [List.cons_append, IOStream.vprintfLoop, if_neg h0, if_neg h37,
      ih (fun x hx => hp x (List.mem_cons_of_mem _ hx))]
    rfl

/-- The scan does not depend on what follows the terminator of the format. -/
theorem vprintfLoop_rest {σ : Type} (t : Target) (d : Device σ) (fmt rest : List Nat)
    (h0 : ∀ c ∈ fmt, c ≠ 0) (mode : Option (Bool × Nat)) (args : List Arg) (outs : IOStream σ) :
    IOStream.vprintfLoop t d (fmt ++ 0 :: rest) mode args outs
      = IOStream.vprintfLoop t d (fmt ++ [0]) mode args outs := by
  induction fmt generalizing mode args outs with
  | nil => cases mode <;> rfl
  | cons c fmt ih =>
    have ih' := ih (fun x hx => h0 x (List.mem_cons_of_mem _ hx))
    have hfun : (fun r : List Arg × IOStream σ =>
          IOStream.vprintfLoop t d (fmt ++ 0 :: rest) none r.1 r.2)
        = fun r => IOStream.vprintfLoop t d (fmt ++ [0]) none r.1 r.2 :=
      funext fun r => ih' none r.1 r.2
    cases mode with
    | none => simp only [List.cons_append, IOStream.vprintfLoop, List.append_eq, ih']
    | some m =>
      obtain ⟨sg, b⟩ := m
      simp only [List.cons_append, IOStream.vprintfLoop, List.append_eq, ih', hfun]

/-- C16: `vprintf_P` is a total function of the format bytes, each step of
the scan moving on by one byte, and its result on a zero-terminated format
does not depend on the bytes after the terminator (it is the result on the
format with nothing after the terminator, where a read beyond it would be
outside the model); a format that ends right after a percent sign and
modifiers, reached over plain characters, returns with every variadic
argument unconsumed. -/
theorem vprintf_stops_at_terminator {σ : Type} (t : Target) (d : Device σ)
    (args : List Arg) (outs : IOStream σ) :
    (∀ fmt rest : List Nat, (∀ c ∈ fmt, c ≠ 0) →
      IOStream.vprintf_P t d outs (fmt ++ 0 :: rest) args
        = IOStream.vprintf_P t d outs (fmt ++ [0]) args) ∧
    (∀ plain mods rest : List Nat, (∀ c ∈ plain, c ≠ 0 ∧ c ≠ 37) → (∀ x ∈ mods, isModifier x) →
      IOStream.vprintf_P t d outs (plain ++ 37 :: mods ++ 0 :: rest) args
        = some (args, { outs with dev := d.putAll (plain ++ [0]) outs.dev })) := by
  refine ⟨fun fmt rest h0 => vprintfLoop_rest t d fmt rest h0 none args outs,
    fun plain mods rest hp hm => ?_⟩
  rw [IOStream.vprintf_P, List.append_assoc, vprintfLoop_plain t d plain _ hp,
    List.cons_append, vprintfLoop_percent, vprintfLoop_mods t d mods _ hm, IOStream.vprintfLoop,
    putAll_append]
  rfl

/-- Witness for C16 on the recording device: the format "a%u" followed by
stray bytes returns with its argument unconsumed. -/
theorem vprintf_stops_at_terminator_witness :
    ((∀ c ∈ [97, 37, 117], c ≠ 0) ∧ (∀ c ∈ [97], c ≠ 0 ∧ c ≠ 37) ∧
      (∀ x ∈ [117], isModifier x)) ∧
    IOStream.vprintf_P avr (scriptDev 9) ⟨⟨[], []⟩, 10⟩ ([97, 37, 117] ++ 0 :: [100, 37])
        [Arg.int 7]
      = IOStream.vprintf_P avr (scriptDev 9) ⟨⟨[], []⟩, 10⟩ ([97, 37, 117] ++ [0]) [Arg.int 7] ∧
    IOStream.vprintf_P avr (scriptDev 9) ⟨⟨[], []⟩, 10⟩ ([97] ++ 37 :: [117] ++ 0 :: [100, 37])
        [Arg.int 7]
      = some ([Arg.int 7],
          { (⟨⟨[], []⟩, 10⟩ : IOStream Script) with
            dev := (scriptDev 9).putAll ([97] ++ [0]) ⟨[], []⟩ }) :=
  ⟨⟨by decide, by decide, by decide⟩,
   (vprintf_stops_at_terminator avr (scriptDev 9) [Arg.int 7] ⟨⟨[], []⟩, 10⟩).1 [97, 37, 117]
     [100, 37] (by decide),
   (vprintf_stops_at_terminator avr (scriptDev 9) [Arg.int 7] ⟨⟨[], []⟩, 10⟩).2 [97] [117]
     [100, 37] (by decide) (by decide)⟩

theorem cstring_some (s text : List Nat) (h : cstring s = some text) :
    ∃ rest, s = text ++ 0 :: rest ∧ ∀ c ∈ text, c ≠ 0 := by
  induction s generalizing text with
  | nil => simp [cstring] at h
  | cons c s ih =>
    rw [cstring] at h
    by_cases hc : c = 0
    · rw [if_pos hc] at h
      cases h
      exact ⟨s, by simp [hc], by simp⟩
    · rw [if_neg hc] at h
      cases hs : cstring s with
      | none => simp [hs] at h
      | some text' =>
        rw [hs] at h
        cases h
        obtain ⟨rest, h1, h2⟩ := ih text' hs
        refine ⟨rest, by rw [h1]; rfl, ?_⟩
        intro x hx
        rcases List.mem_cons.mp hx with rfl | hx
        · exact hc
        · exact h2 x hx

theorem lastBase_printBase (b : Nat) (hb : printBase b) (mods : List Nat) :
    printBase (lastBase b mods) := by
  induction mods generalizing b with
  | nil => exact hb
  | cons c mods ih =>
    rw [lastBase_cons]
    apply ih
    unfold modifierBase
    split
    · exact Or.inl rfl
    · split
      · exact Or.inr (Or.inl rfl)
      · split
        · exact Or.inr (Or.inr (Or.inr rfl))
        · exact hb

theorem directiveBase_printBase (mods : List Nat) : printBase (directiveBase mods) :=
  lastBase_printBase 10 (by decide) mods

theorem print_ptr_accepted {σ : Type} (t : Target) (d : Device σ) (outs : IOStream σ) (p : Nat)
    (hi : 2 ≤ t.intBits) (hacc : d.accepts (addrText t p) outs.dev) :
    IOStream.print_ptr t d outs p
      = some { outs with dev := d.putAll (addrText t p) outs.dev } :=
  print_text_accepted d outs 16 _ _ (by decide) (utoaText_ne_zero _ _)
    (utoaText_fits _ _ 16 (le_trans (by decide) hi) (by decide)
      (Nat.mod_lt _ (Nat.pow_pos (by decide)))) hacc

/-- The conversion case of a directive sends the rendering of the next
argument and consumes that argument. -/
theorem convert_renders {σ : Type} (t : Target) (d : Device σ) (mods : List Nat) (conv : Nat)
    (a : Arg) (args : List Arg) (text : List Nat) (outs : IOStream σ) (hi : 2 ≤ t.intBits)
    (hl : 2 ≤ t.longBits) (hr : renderArg t mods conv a = some text)
    (hacc : d.accepts text outs.dev) :
    IOStream.convert t d conv (directiveSigned mods) (directiveBase mods) (a :: args) outs
      = some (args, { outs with dev := d.putAll text outs.dev }) := by
  have hbase := directiveBase_printBase mods
  have hb2 := (printBase_bounds _ hbase).1
  have hsig : 117 ∉ mods → directiveSigned mods = true := fun h => by
    cases hs : directiveSigned mods with
    | true => rfl
    | false => exact absurd ((directiveSigned_eq_false_iff mods).mp hs) h
  cases a with
  | int n =>
    simp only [renderArg] at hr
    split at hr
    · rename_i h99
      cases hr
      subst h99
      rfl
    · split at hr
      · rename_i h99 h
        obtain ⟨rfl, hu, hn⟩ := h
        cases hr
        have hp : IOStream.print_int t d outs n (directiveBase mods) = some _ :=
          print_text_accepted d outs _ _ _ hbase (itoaText_ne_zero _ _ _)
            (itoaText_fits _ n _ hi hb2 hn) hacc
        simp [IOStream.convert, hsig hu, hp]
      · cases hr
  | uint n =>
    simp only [renderArg] at hr
    split at hr
    · rename_i h
      obtain ⟨rfl, hu, hn⟩ := h
      cases hr
      have hp : IOStream.print_uint t d outs n (directiveBase mods) = some _ :=
        print_text_accepted d outs _ _ _ hbase (utoaText_ne_zero _ _)
          (utoaText_fits _ n _ (le_trans (by decide) hi) hb2 hn) hacc
      simp [IOStream.convert, (directiveSigned_eq_false_iff mods).mpr hu, hp]
    · cases hr
  | long n =>
    simp only [renderArg] at hr
    split at hr
    · rename_i h
      obtain ⟨rfl, hu, hn⟩ := h
      cases hr
      have hp : IOStream.print_long t d outs n (directiveBase mods) = some _ :=
        print_text_accepted d outs _ _ _ hbase (itoaText_ne_zero _ _ _)
          (itoaText_fits _ n _ hl hb2 hn) hacc
      simp [IOStream.convert, hsig hu, hp]
    · cases hr
  | ulong n =>
    simp only [renderArg] at hr
    split at hr
    · rename_i h
      obtain ⟨rfl, hu, hn⟩ := h
      cases hr
      have hp : IOStream.print_ulong t d outs n (directiveBase mods) = some _ :=
        print_text_accepted d outs _ _ _ hbase (utoaText_ne_zero _ _)
          (utoaText_fits _ n _ (le_trans (by decide) hl) hb2 hn) hacc
      simp [IOStream.convert, (directiveSigned_eq_false_iff mods).mpr hu, hp]
    · cases hr
  | ptr p =>
    simp only [renderArg] at hr
    split at hr
    · rename_i h
      subst h
      cases hr
      simp [IOStream.convert, print_ptr_accepted t d outs p hi hacc]
    · cases hr
  | str s =>
    simp only [renderArg] at hr
    split at hr
    · rename_i h
      subst h
      obtain ⟨rest, rfl, h0⟩ := cstring_some s text hr
      simp [IOStream.convert, print_str_accepted d outs text rest h0 hacc]
    · cases hr
  | pstr s =>
    simp only [renderArg] at hr
    split at hr
    · rename_i h
      subst h
      obtain ⟨rest, rfl, h0⟩ := cstring_some s text hr
      simp [IOStream.convert, print_P_accepted d outs text rest h0 hacc]
    · cases hr

theorem renderItems_plain (t : Target) (c : Nat) (items : List Item) (args rest : List Arg)
    (text : List Nat) (hr : renderItems t (Item.plain c :: items) args = some (text, rest)) :
    ∃ text', renderItems t items args = some (text', rest) ∧ text = c :: text' := by
  rw [renderItems] at hr
  cases h : renderItems t items args with
  | none => simp [h] at hr
  | some r =>
    obtain ⟨text', rest'⟩ := r
    simp only [h, Option.map_some', Option.some.injEq, Prod.mk.injEq] at hr
    exact ⟨text', by rw [hr.2], hr.1.symm⟩

theorem renderItems_directive (t : Target) (mods : List Nat) (conv : Nat) (items : List Item)
    (args rest : List Arg) (text : List Nat)
    (hr : renderItems t (Item.directive mods conv :: items) args = some (text, rest)) :
    ∃ a args' t1 t2, args = a :: args' ∧ renderArg t mods conv a = some t1 ∧
      renderItems t items args' = some (t2, rest) ∧ text = t1 ++ t2 := by
  cases args with
  | nil => simp [renderItems] at hr
  | cons a args' =>
    rw [renderItems] at hr
    cases h1 : renderArg t mods conv a with
    | none => simp [h1] at hr
    | some t1 =>
      cases h2 : renderItems t items args' with
      | none => simp [h1, h2] at hr
      | some r =>
        obtain ⟨t2, rest'⟩ := r
        simp only [h1, h2, Option.some_bind, Option.map_some', Option.some.injEq,
          Prod.mk.injEq] at hr
        exact ⟨a, args', t1, t2, rfl, h1, by rw [h2, hr.2], hr.1.symm⟩

theorem renderItems_consumes (t : Target) (items : List Item) (args rest : List Arg)
    (text : List Nat) (hr : renderItems t items args = some (text, rest)) :
    ∃ used, args = used ++ rest ∧ used.length = directiveCount items := by
  induction items generalizing args text with
  | nil =>
    simp only [renderItems, Option.some.injEq, Prod.mk.injEq] at hr
    exact ⟨[], by simp [hr.2], rfl⟩
  | cons it items ih =>
    cases it with
    | plain c =>
      obtain ⟨text', h1, _⟩ := renderItems_plain t c items args rest text hr
      exact ih args text' h1
    | directive mods conv =>
      obtain ⟨a, args', t1, t2, rfl, _, h2, _⟩ :=
        renderItems_directive t mods conv items args rest text hr
      obtain ⟨used, h3, h4⟩ := ih args' t2 h2
      exact ⟨a :: used, by rw [h3]; rfl, by simp [directiveCount, h4]⟩

/-- The scan over the pieces of a well-formed format on a Device that accepts
the bytes. -/
theorem vprintfLoop_items {σ : Type} (t : Target) (d : Device σ) (items : List Item)
    (tail : List Nat) (args rest : List Arg) (text : List Nat) (outs : IOStream σ)
    (hi : 2 ≤ t.intBits) (hl : 2 ≤ t.longBits) (hwf : ∀ it ∈ items, Item.wellFormed it)
    (hr : renderItems t items args = some (text, rest)) (hacc : d.accepts text outs.dev) :
    IOStream.vprintfLoop t d (items.flatMap Item.encode ++ 0 :: tail) none args outs
      = some (rest, { outs with dev := d.putAll text outs.dev }) := by
  induction items generalizing args text outs with
  | nil =>
    simp only [renderItems, Option.some.injEq, Prod.mk.injEq] at hr
    obtain ⟨rfl, rfl⟩ := hr
    rfl
  | cons it items ih =>
    have hwf' : ∀ x ∈ items, Item.wellFormed x := fun x hx => hwf x (List.mem_cons_of_mem _ hx)
    have hit := hwf it (List.mem_cons_self _ _)
    cases it with
    | plain c =>
      obtain ⟨text', h1, rfl⟩ := renderItems_plain t c items args rest text hr
      obtain ⟨h0, h37⟩ := hit
      rw [List.flatMap_cons, Item.encode, List.append_assoc, List.singleton_append,
        IOStream.vprintfLoop, if_neg h0, if_neg h37,
        ih args text' (IOStream.print_char d outs c) hwf' h1 hacc.2]
      rfl
    | directive mods conv =>
      obtain ⟨a, args', t1, t2, rfl, h1, h2, rfl⟩ :=
        renderItems_directive t mods conv items args rest text hr
      obtain ⟨hm, hc⟩ := hit
      rw [accepts_append] at hacc
      have hshape : (Item.directive mods conv :: items).flatMap Item.encode ++ 0 :: tail
          = 37 :: mods ++ conv :: (items.flatMap Item.encode ++ 0 :: tail) := by
        simp [Item.encode, List.append_assoc]
      rw [hshape, vprintfLoop_directive t d mods conv _ hm hc,
        convert_renders t d mods conv a args' t1 outs hi hl h1 hacc.1, Option.some_bind,
        ih args' t2 _ hwf' h2 hacc.2, putAll_append]

/-- C13: for a format string made of well-formed pieces (plain characters and
directives with optional modifiers) and arguments that fit the directives,
`vprintf_P` on a Device that accepts the bytes sends, in format order, each
plain character unchanged and each directive's rendering of its argument; it
consumes one argument per directive, left to right, and leaves the others. -/
theorem vprintf_renders_items {σ : Type} (t : Target) (d : Device σ) (items : List Item)
    (tail : List Nat) (args rest : List Arg) (text : List Nat) (outs : IOStream σ)
    (hi : 2 ≤ t.intBits) (hl : 2 ≤ t.longBits) (hwf : ∀ it ∈ items, Item.wellFormed it)
    (hr : renderItems t items args = some (text, rest)) (hacc : d.accepts text outs.dev) :
    IOStream.vprintf_P t d outs (items.flatMap Item.encode ++ 0 :: tail) args
      = some (rest, { outs with dev := d.putAll text outs.dev }) ∧
    ∃ used, args = used ++ rest ∧ used.length = directiveCount items :=
  ⟨vprintfLoop_items t d items tail args rest text outs hi hl hwf hr hacc,
   renderItems_consumes t items args rest text hr⟩

/-- Witness for C13 on the AVR target and the recording device: the format
"%d %s %c" with the arguments -5, "ab", 'Z' and one more sends "-5 ab Z" and
leaves the fourth argument. -/
theorem vprintf_renders_items_witness :
    (2 ≤ avr.intBits ∧ 2 ≤ avr.longBits ∧
      (∀ it ∈ [Item.directive [] 100, Item.plain 32, Item.directive [] 115, Item.plain 32,
        Item.directive [] 99], Item.wellFormed it) ∧
      renderItems avr [Item.directive [] 100, Item.plain 32, Item.directive [] 115,
          Item.plain 32, Item.directive [] 99]
          [Arg.int (-5), Arg.str [97, 98, 0], Arg.int 90, Arg.int 1]
        = some ([45, 53, 32, 97, 98, 32, 90], [Arg.int 1]) ∧
      (scriptDev 9).accepts [45, 53, 32, 97, 98, 32, 90] ⟨[], []⟩) ∧
    [Item.directive [] 100, Item.plain 32, Item.directive [] 115, Item.plain 32,
        Item.directive [] 99].flatMap Item.encode ++ 0 :: []
      = [37, 100, 32, 37, 115, 32, 37, 99, 0] ∧
    IOStream.vprintf_P avr (scriptDev 9) ⟨⟨[], []⟩, 10⟩
        ([Item.directive [] 100, Item.plain 32, Item.directive [] 115, Item.plain 32,
          Item.directive [] 99].flatMap Item.encode ++ 0 :: [])
        [Arg.int (-5), Arg.str [97, 98, 0], Arg.int 90, Arg.int 1]
      = some ([Arg.int 1],
          { (⟨⟨[], []⟩, 10⟩ : IOStream Script) with
            dev := (scriptDev 9).putAll [45, 53, 32, 97, 98, 32, 90] ⟨[], []⟩ }) ∧
    (scriptDev 9).putAll [45, 53, 32, 97, 98, 32, 90] ⟨[], []⟩
      = ⟨[], [45, 53, 32, 97, 98, 32, 90]⟩ :=
  ⟨⟨by decide, by decide, by decide, by decide, scriptDev_accepts _ _ _ (by decide)⟩,
   by decide,
   (vprintf_renders_items avr (scriptDev 9) _ [] _ _ _ ⟨⟨[], []⟩, 10⟩ (by decide) (by decide)
     (by decide) (by decide) (scriptDev_accepts _ _ _ (by decide))).1,
   by decide⟩

/-! ### The memory dump -/

theorem dumpValue_ne_zero (t : Target) (base b : Nat) : ∀ c ∈ dumpValue t base b, c ≠ 0 := by
  intro c hc
  have := utoaText_ge _ _ c (List.mem_of_mem_drop hc)
  omega

theorem dumpSkip_le_one (base : Nat) : dumpSkip base ≤ 1 := by
  unfold dumpSkip
  split <;> omega

/-- The conversion and print of one value in the dump loop. -/
theorem dump_value_accepted {σ : Type} (t : Target) (d : Device σ) (base b : Nat)
    (hbase : printBase base) (hi : 2 ≤ t.intBits) :
    ∃ buf, utoa ((b % 256 + dumpAdjust base) % 2 ^ t.intBits)
        (localBuf (t.sizeofInt * t.CHARBITS + 1)) base = some buf ∧
      ∀ outs : IOStream σ, d.accepts (dumpValue t base b) outs.dev →
        IOStream.print_str d outs (buf.drop (dumpSkip base))
          = some { outs with dev := d.putAll (dumpValue t base b) outs.dev } := by
  have hb2 := (printBase_bounds base hbase).1
  have hfit := utoaText_fits t.intBits ((b % 256 + dumpAdjust base) % 2 ^ t.intBits) base
    (le_trans (by decide) hi) hb2 (Nat.mod_lt _ (Nat.pow_pos (by decide)))
  have hcap : (utoaText ((b % 256 + dumpAdjust base) % 2 ^ t.intBits) base).length + 1
      ≤ (localBuf (t.sizeofInt * t.CHARBITS + 1)).length := by
    simpa [localBuf] using hfit
  have hlen : dumpSkip base
      ≤ (utoaText ((b % 256 + dumpAdjust base) % 2 ^ t.intBits) base).length := by
    have h1 := dumpSkip_le_one base
    have h2 := List.length_pos.mpr (utoaText_ne_nil ((b % 256 + dumpAdjust base) % 2 ^ t.intBits)
      base)
    omega
  refine ⟨_, by rw [utoa, storeText, if_pos hcap], fun outs hacc => ?_⟩
  rw [List.drop_append_of_le_length hlen]
  exact print_str_accepted d outs _ _ (dumpValue_ne_zero t base b) hacc

/-- On a Device that accepts the bytes, the dump loop sends the bytes of
`dumpLoopText` and returns. -/
theorem dumpLoop_accepted {σ : Type} (t : Target) (d : Device σ) (m : Mem) (base max : Nat)
    (hbase : printBase base) (hi : 2 ≤ t.intBits) (size p n : Nat) (outs : IOStream σ)
    (hacc : d.accepts (dumpLoopText t m base max size p n) outs.dev) :
    IOStream.dumpLoop t d m base max size p n outs
      = some { outs with dev := d.putAll (dumpLoopText t m base max size p n) outs.dev } := by
  induction size generalizing p n outs with
  | zero =>
    by_cases hn : n = 0
    · simp [IOStream.dumpLoop, dumpLoopText, hn, Device.putAll]
    · simp [IOStream.dumpLoop, dumpLoopText, hn, Device.putAll, IOStream.println,
        IOStream.print_char]
  | succ size ih =>
    rw [dumpLoopText, accepts_append, accepts_append] at hacc
    obtain ⟨⟨hlead, hval⟩, hrest⟩ := hacc
    rw [putAll_append] at hrest
    rw [dumpLoopText, putAll_append, putAll_append, IOStream.dumpLoop]
    have hstart : (if n = 0 then
          (IOStream.print_ptr t d outs p).bind fun o => IOStream.print_P d o [58, 32, 0]
        else some outs)
        = some ⟨d.putAll (if n = 0 then addrText t p ++ [58, 32] else []) outs.dev,
            outs.m_base⟩ := by
      by_cases hn : n = 0
      · rw [if_pos hn] at hlead ⊢
        rw [if_pos hn]
        rw [accepts_append] at hlead
        rw [print_ptr_accepted t d outs p hi hlead.1, Option.some_bind, putAll_append]
        exact print_P_accepted d _ [58, 32] [] (by decide) hlead.2
      · rw [if_neg hn, if_neg hn]
        rfl
    obtain ⟨buf, hbuf, hprint⟩ := dump_value_accepted t d base (m p) hbase hi
    rw [hstart, Option.some_bind, hbuf, Option.some_bind, hprint _ hval, Option.some_bind]
    by_cases hcol : (n + 1) % 256 < max
    · rw [if_pos hcol] at hrest ⊢
      have hsp := print_P_accepted d
        (⟨d.putAll (dumpValue t base (m p))
          (d.putAll (if n = 0 then addrText t p ++ [58, 32] else []) outs.dev), outs.m_base⟩ :
          IOStream σ) [32] [] (by decide) ⟨hrest.1, trivial⟩
      rw [if_pos hcol, show ([32, 0] : List Nat) = [32] ++ 0 :: [] from rfl, hsp,
        Option.some_bind, ih _ _ _ hrest.2]
      rfl
    · rw [if_neg hcol] at hrest ⊢
      rw [if_neg hcol, ih _ _ _ hrest.2]
      rfl

theorem dumpCells_succ_last (t : Target) (m : Mem) (base max cnt p col : Nat) :
    dumpCells t m base max (cnt + 1) p col
      = dumpCells t m base max cnt p col ++ dumpCell t m base max (p + cnt) (col + cnt) := by
  induction cnt generalizing p col with
  | zero => simp [dumpCells]
  | succ cnt ih =>
    rw [dumpCells, ih (p + 1) (col + 1), dumpCells, List.append_assoc,
      show p + 1 + cnt = p + (cnt + 1) by omega, show col + 1 + cnt = col + (cnt + 1) by omega]

/-- Values that do not fill their line: each is followed by a space and the
loop goes on in the same line. -/
theorem dumpLoopText_cells (t : Target) (m : Mem) (base max : Nat) (hmax : max ≤ 256)
    (cnt rem p col : Nat) (hcol : col + cnt < max) :
    dumpLoopText t m base max (cnt + rem) p col
      = (if col = 0 ∧ cnt ≠ 0 then addrText t p ++ [58, 32] else []) ++
          dumpCells t m base max cnt p col ++
          dumpLoopText t m base max rem (p + cnt) (col + cnt) := by
  induction cnt generalizing p col with
  | zero => simp [dumpCells]
  | succ cnt ih =>
    have h1 : (col + 1) % 256 = col + 1 := Nat.mod_eq_of_lt (by omega)
    have h2 : col + 1 < max := by omega
    rw [show cnt + 1 + rem = (cnt + rem) + 1 by omega, dumpLoopText, h1, if_pos h2,
      ih (p + 1) (col + 1) (by omega), dumpCells, dumpCell, if_pos h2,
      show p + 1 + cnt = p + (cnt + 1) by omega, show col + 1 + cnt = col + (cnt + 1) by omega]
    by_cases hc : col = 0 <;> simp [hc]

/-- A full line: `max` values, the last followed directly by the line break,
after which the loop starts a new line. -/
theorem dumpLoopText_full_line (t : Target) (m : Mem) (base max : Nat) (h1 : 1 ≤ max)
    (hmax : max < 256) (rem p : Nat) :
    dumpLoopText t m base max (max + rem) p 0
      = dumpLine t m base max p max ++ dumpLoopText t m base max rem (p + max) 0 := by
  obtain ⟨k, rfl⟩ : ∃ k, max = k + 1 := ⟨max - 1, by omega⟩
  have hlast : (k + 1) % 256 = k + 1 := Nat.mod_eq_of_lt hmax
  rw [show k + 1 + rem = k + (rem + 1) by omega,
    dumpLoopText_cells t m base (k + 1) (by omega) k (rem + 1) p 0 (by omega), dumpLoopText,
    Nat.zero_add, hlast, if_neg (Nat.lt_irrefl _), dumpLine, dumpCells_succ_last, dumpCell,
    Nat.zero_add, if_neg (Nat.lt_irrefl _)]
  by_cases hk : k = 0 <;> simp [hk, List.append_assoc] <;> rfl

/-- A last line of fewer than `max` values: each value is followed by a
space and the line break comes after the loop. -/
theorem dumpLoopText_partial_line (t : Target) (m : Mem) (base max : Nat) (hmax : max ≤ 256)
    (size p : Nat) (h0 : 0 < size) (hsize : size < max) :
    dumpLoopText t m base max size p 0 = dumpLine t m base max p size := by
  have h := dumpLoopText_cells t m base max hmax size 0 p 0 (by omega)
  rw [Nat.add_zero] at h
  rw [h, dumpLoopText, dumpLine]
  have hne : size ≠ 0 := by omega
  simp [hne]

theorem dumpLines_zero (t : Target) (m : Mem) (base max ptr : Nat) (h1 : 1 ≤ max) :
    dumpLines t m base max ptr 0 = [] := by
  have h : (0 + max - 1) / max = 0 := Nat.div_eq_of_lt (by omega)
  rw [dumpLines, h]
  rfl

theorem dumpLines_short (t : Target) (m : Mem) (base max ptr size : Nat) (h0 : 0 < size)
    (hsize : size ≤ max) : dumpLines t m base max ptr size = [dumpLine t m base max ptr size] := by
  have h : (size + max - 1) / max = 1 :=
    Nat.div_eq_of_lt_le (by omega) (by omega)
  rw [dumpLines, h]
  show [dumpLine t m base max (ptr + 0 * max) (min max (size - 0 * max))] = _
  rw [Nat.zero_mul, Nat.add_zero, Nat.sub_zero, Nat.min_eq_right hsize]

theorem dumpLines_step (t : Target) (m : Mem) (base max ptr r : Nat) (h1 : 1 ≤ max) :
    dumpLines t m base max ptr (max + r)
      = dumpLine t m base max ptr max :: dumpLines t m base max (ptr + max) r := by
  have h : (max + r + max - 1) / max = (r + max - 1) / max + 1 := by
    rw [show max + r + max - 1 = (r + max - 1) + max by omega]
    exact Nat.add_div_right _ (by omega)
  rw [dumpLines, h, List.range_succ_eq_map, List.map_cons, List.map_map, dumpLines]
  congr 1
  · rw [Nat.zero_mul, Nat.add_zero, Nat.sub_zero, Nat.min_eq_left (Nat.le_add_right _ _)]
  · apply List.map_congr_left
    intro k _
    simp only [Function.comp, Nat.succ_eq_add_one]
    rw [Nat.add_mul, Nat.one_mul, show ptr + (k * max + max) = ptr + max + k * max by omega,
      show max + r - (k * max + max) = r - k * max by omega]

/-- The bytes of the dump loop from the start of a line are the lines of the
spec one after the other. -/
theorem dumpLoopText_eq_lines (t : Target) (m : Mem) (base max : Nat) (h1 : 1 ≤ max)
    (hmax : max < 256) (size p : Nat) :
    dumpLoopText t m base max size p 0 = (dumpLines t m base max p size).flatten := by
  induction size using Nat.strong_induction_on generalizing p with
  | _ size ih =>
    rcases Nat.eq_zero_or_pos size with rfl | hpos
    · rw [dumpLines_zero t m base max p h1]
      rfl
    · rcases Nat.lt_or_ge size max with hlt | hge
      · rw [dumpLoopText_partial_line t m base max (by omega) size p hpos hlt,
          dumpLines_short t m base max p size hpos (by omega)]
        simp
      · obtain ⟨r, rfl⟩ : ∃ r, size = max + r := ⟨size - max, by omega⟩
        rw [dumpLoopText_full_line t m base max h1 hmax r p, dumpLines_step t m base max p r h1,
          List.flatten_cons, ih r (by omega)]

theorem count_eq_zero_of_ge (l : List Nat) (h : ∀ c ∈ l, 48 ≤ c) : l.count 10 = 0 := by
  rw [List.count_eq_zero]
  intro hmem
  have := h 10 hmem
  omega

theorem dumpCells_count (t : Target) (m : Mem) (base max cnt p col : Nat) :
    (dumpCells t m base max cnt p col).count 10 = 0 := by
  induction cnt generalizing p col with
  | zero => rfl
  | succ cnt ih =>
    have hv : (dumpValue t base (m p)).count 10 = 0 :=
      count_eq_zero_of_ge _ fun c hc => utoaText_ge _ _ c (List.mem_of_mem_drop hc)
    rw [dumpCells, dumpCell, List.count_append, List.count_append, ih, hv]
    split <;> rfl

theorem dumpLine_count (t : Target) (m : Mem) (base max p cnt : Nat) :
    (dumpLine t m base max p cnt).count 10 = 1 := by
  have ha : (addrText t p).count 10 = 0 := by
    apply count_eq_zero_of_ge
    intro c hc
    rcases List.mem_append.mp hc with h | h
    · have : c = 48 ∨ c = 120 := by simpa [basePrefix] using h
      omega
    · exact utoaText_ge _ _ c h
  rw [dumpLine, List.count_append, List.count_append, List.count_append, ha, dumpCells_count]
  rfl

/-- C11: for every `max` from 1 to 255, every block size and every base in 2,
8, 10, 16, the memory dump on a Device that accepts the bytes sends exactly
`ceil(size / max)` lines one after the other; line `k` is the address of its
first byte, ": ", its `min(max, size - k * max)` values and one line break,
the only one in the line.  A size of 0 gives no line at all, a size of `max`
exactly one line, and a size of `max + 1` two lines, the second with one
value. -/
theorem dump_emits_lines {σ : Type} (t : Target) (d : Device σ) (m : Mem) (outs : IOStream σ)
    (ptr size base max : Nat) (hbase : printBase base) (hi : 2 ≤ t.intBits) (h1 : 1 ≤ max)
    (hmax : max < 256)
    (hacc : d.accepts (dumpLines t m base max ptr size).flatten outs.dev) :
    IOStream.dump t d m outs ptr size base max
      = some { outs with dev := d.putAll (dumpLines t m base max ptr size).flatten outs.dev } ∧
    (dumpLines t m base max ptr size).length = (size + max - 1) / max ∧
    (∀ k, k < (size + max - 1) / max →
      (dumpLines t m base max ptr size)[k]?
        = some (dumpLine t m base max (ptr + k * max) (min max (size - k * max)))) ∧
    (∀ p cnt, dumpLine t m base max p cnt
        = addrText t p ++ [58, 32] ++ dumpCells t m base max cnt p 0 ++ [10] ∧
      (dumpLine t m base max p cnt).count 10 = 1) ∧
    dumpLines t m base max ptr 0 = [] ∧
    dumpLines t m base max ptr max = [dumpLine t m base max ptr max] ∧
    dumpLines t m base max ptr (max + 1)
      = [dumpLine t m base max ptr max, dumpLine t m base max (ptr + max) 1] := by
  refine ⟨?_, by simp [dumpLines], fun k hk => by simp [dumpLines, hk],
    fun p cnt => ⟨rfl, dumpLine_count t m base max p cnt⟩, dumpLines_zero t m base max ptr h1,
    dumpLines_short t m base max ptr max h1 (le_refl _), ?_⟩
  · rw [← dumpLoopText_eq_lines t m base max h1 hmax size ptr] at hacc ⊢
    exact dumpLoop_accepted t d m base max hbase hi size ptr 0 outs hacc
  · rw [dumpLines_step t m base max ptr 1 h1]
    by_cases hm : max = 1
    · subst hm
      rw [dumpLines_short t m base 1 (ptr + 1) 1 (by decide) (by decide)]
    · rw [dumpLines_short t m base max (ptr + max) 1 (by decide) h1]

/-- Witness for C11 on the AVR target: three bytes from address 16 dumped in
octal, two to a line, make the lines "0x10: 000 377" and "0x12: 377 ". -/
theorem dump_emits_lines_witness :
    (printBase 8 ∧ 2 ≤ avr.intBits ∧ 1 ≤ 2 ∧ 2 < 256 ∧
      (scriptDev 99).accepts (dumpLines avr sampleMem 8 2 16 3).flatten ⟨[], []⟩) ∧
    IOStream.dump avr (scriptDev 99) sampleMem ⟨⟨[], []⟩, 10⟩ 16 3 8 2
      = some { (⟨⟨[], []⟩, 10⟩ : IOStream Script) with
          dev := (scriptDev 99).putAll (dumpLines avr sampleMem 8 2 16 3).flatten ⟨[], []⟩ } ∧
    dumpLines avr sampleMem 8 2 16 3
      = [[48, 120, 49, 48, 58, 32, 48, 48, 48, 32, 51, 55, 55, 10],
         [48, 120, 49, 50, 58, 32, 51, 55, 55, 32, 10]] :=
  ⟨⟨by decide, by decide, by decide, by decide, scriptDev_accepts _ _ _ (by decide)⟩,
   (dump_emits_lines avr (scriptDev 99) sampleMem ⟨⟨[], []⟩, 10⟩ 16 3 8 2 (by decide) (by decide)
     (by decide) (by decide) (scriptDev_accepts _ _ _ (by decide))).1,
   by decide⟩

theorem dumpValue_of_byte (t : Target) (base b : Nat) (hi : 10 ≤ t.intBits) (hb : b < 256) :
    dumpValue t base b = (utoaText (b + dumpAdjust base) base).drop (dumpSkip base) := by
  have hadj : dumpAdjust base ≤ 512 := by
    unfold dumpAdjust
    split
    · omega
    · split <;> omega
  have hpow : 2 ^ 10 ≤ 2 ^ t.intBits := Nat.pow_le_pow_right (by decide) hi
  rw [dumpValue, Nat.mod_eq_of_lt hb, Nat.mod_eq_of_lt (by omega)]

set_option maxRecDepth 100000 in
theorem dump_binary_digits : ∀ b, b < 256 →
    ((utoaText (b + dumpAdjust 2) 2).drop (dumpSkip 2)).length = 8 ∧
    parseDigits 2 ((utoaText (b + dumpAdjust 2) 2).drop (dumpSkip 2)) 0 = some b := by
  decide

set_option maxRecDepth 100000 in
theorem dump_octal_digits : ∀ b, b < 256 →
    ((utoaText (b + dumpAdjust 8) 8).drop (dumpSkip 8)).length = 3 ∧
    parseDigits 8 ((utoaText (b + dumpAdjust 8) 8).drop (dumpSkip 8)) 0 = some b := by
  decide

set_option maxRecDepth 100000 in
theorem dump_hex_digits : ∀ b, b < 256 →
    ((utoaText (b + dumpAdjust 16) 16).drop (dumpSkip 16)).length = 2 ∧
    parseDigits 16 ((utoaText (b + dumpAdjust 16) 16).drop (dumpSkip 16)) 0 = some b := by
  decide

set_option maxRecDepth 100000 in
theorem dump_decimal_digits : ∀ b, b < 256 →
    (utoaText (b + dumpAdjust 10) 10).drop (dumpSkip 10) = utoaText b 10 ∧
    parseDigits 10 (utoaText b 10) 0 = some b ∧
    (utoaText b 10).length = if b < 10 then 1 else if b < 100 then 2 else 3 := by
  decide

/-- C12: for every byte value `b` in 0..255 (on a target whose `int` has at
least 10 bits) the memory dump renders `b` as exactly 8 binary digits in base
2, exactly 3 octal digits in base 8, exactly 2 hexadecimal digits in base 16,
and in base 10 as the plain decimal text of `b`, of 1, 2 or 3 digits with no
padding; in each case the digits read back as `b`.  A zero byte renders as
"00000000", "000", "00" and "0". -/
theorem dump_value_width (t : Target) (b : Nat) (hi : 10 ≤ t.intBits) (hb : b < 256) :
    ((dumpValue t 2 b).length = 8 ∧ parseDigits 2 (dumpValue t 2 b) 0 = some b) ∧
    ((dumpValue t 8 b).length = 3 ∧ parseDigits 8 (dumpValue t 8 b) 0 = some b) ∧
    ((dumpValue t 16 b).length = 2 ∧ parseDigits 16 (dumpValue t 16 b) 0 = some b) ∧
    (dumpValue t 10 b = utoaText b 10 ∧ parseDigits 10 (dumpValue t 10 b) 0 = some b ∧
      (dumpValue t 10 b).length = if b < 10 then 1 else if b < 100 then 2 else 3) ∧
    (dumpValue t 2 0 = [48, 48, 48, 48, 48, 48, 48, 48] ∧ dumpValue t 8 0 = [48, 48, 48] ∧
      dumpValue t 16 0 = [48, 48] ∧ dumpValue t 10 0 = [48]) := by
  have h10 := dump_decimal_digits b hb
  refine ⟨?_, ?_, ?_, ?_, ?_⟩
  · rw [dumpValue_of_byte t 2 b hi hb]
    exact dump_binary_digits b hb
  · rw [dumpValue_of_byte t 8 b hi hb]
    exact dump_octal_digits b hb
  · rw [dumpValue_of_byte t 16 b hi hb]
    exact dump_hex_digits b hb
  · rw [dumpValue_of_byte t 10 b hi hb, h10.1]
    exact ⟨rfl, h10.2.1, h10.2.2⟩
  · rw [dumpValue_of_byte t 2 0 hi (by decide), dumpValue_of_byte t 8 0 hi (by decide),
      dumpValue_of_byte t 16 0 hi (by decide), dumpValue_of_byte t 10 0 hi (by decide)]
    decide

/-- Witness for C12 on the AVR target: the byte 10 renders as "00001010",
"012", "0a" and "10". -/
theorem dump_value_width_witness :
    (10 ≤ avr.intBits ∧ 10 < 256) ∧
    ((dumpValue avr 2 10).length = 8 ∧ parseDigits 2 (dumpValue avr 2 10) 0 = some 10) ∧
    (dumpValue avr 2 10 = [48, 48, 48, 48, 49, 48, 49, 48] ∧ dumpValue avr 8 10 = [48, 49, 50] ∧
      dumpValue avr 16 10 = [48, 97] ∧ dumpValue avr 10 10 = [49, 48]) :=
  ⟨⟨by decide, by decide⟩, (dump_value_width avr 10 (by decide) (by decide)).1, by decide⟩

/-! ### The base of the stream -/

theorem print_str_base {σ : Type} (d : Device σ) (outs o : IOStream σ) (s : List Nat)
    (h : IOStream.print_str d outs s = some o) : o.m_base = outs.m_base := by
  unfold IOStream.print_str at h
  cases hp : d.puts s outs.dev with
  | none => simp [hp] at h
  | some r =>
    simp only [hp, Option.map_some', Option.some.injEq] at h
    rw [← h]

theorem print_P_base {σ : Type} (d : Device σ) (outs o : IOStream σ) (s : List Nat)
    (h : IOStream.print_P d outs s = some o) : o.m_base = outs.m_base := by
  unfold IOStream.print_P at h
  cases hp : d.puts_P s outs.dev with
  | none => simp [hp] at h
  | some r =>
    simp only [hp, Option.map_some', Option.some.injEq] at h
    rw [← h]

theorem print_prefix_base {σ : Type} (d : Device σ) (outs o : IOStream σ) (base : Nat)
    (h : (if base ≠ 10 then IOStream.print_prefix d outs base else some outs) = some o) :
    o.m_base = outs.m_base := by
  unfold IOStream.print_prefix at h
  split at h
  · split at h
    · exact print_P_base d outs o _ h
    · split at h
      · exact print_P_base d outs o _ h
      · split at h
        · exact print_P_base d outs o _ h
        · cases h
          rfl
  · cases h
    rfl

/-- The common body of the integer `print` overloads keeps the base. -/
theorem print_text_base {σ : Type} (d : Device σ) (outs o : IOStream σ) (base : Nat)
    (conv : Option (List Nat))
    (h : ((if base ≠ 10 then IOStream.print_prefix d outs base else some outs).bind fun outs1 =>
      conv.bind fun buf => IOStream.print_str d outs1 buf) = some o) :
    o.m_base = outs.m_base := by
  simp only [Option.bind_eq_some] at h
  obtain ⟨o1, h1, buf, _, h3⟩ := h
  rw [print_str_base d o1 o buf h3, print_prefix_base d outs o1 base h1]

theorem dumpLoop_base {σ : Type} (t : Target) (d : Device σ) (m : Mem) (base max size p n : Nat)
    (outs o : IOStream σ) (h : IOStream.dumpLoop t d m base max size p n outs = some o) :
    o.m_base = outs.m_base := by
  induction size generalizing p n outs with
  | zero =>
    rw [IOStream.dumpLoop] at h
    split at h <;> cases h <;> rfl
  | succ size ih =>
    rw [IOStream.dumpLoop] at h
    simp only [Option.bind_eq_some] at h
    obtain ⟨o1, h1, buf, _, o2, h2, h3⟩ := h
    have e1 : o1.m_base = outs.m_base := by
      split at h1
      · simp only [Option.bind_eq_some] at h1
        obtain ⟨q, hq1, hq2⟩ := h1
        rw [print_P_base d q o1 _ hq2]
        exact print_text_base d outs q 16 _ hq1
      · cases h1
        rfl
    have e2 := print_str_base d o1 o2 _ h2
    split at h3
    · simp only [Option.bind_eq_some] at h3
      obtain ⟨o3, h4, h5⟩ := h3
      rw [ih _ _ _ h5, print_P_base d o2 o3 _ h4, e2, e1]
    · rw [ih _ _ _ h3]
      exact e2.trans e1

theorem convert_base {σ : Type} (t : Target) (d : Device σ) (c : Nat) (sg : Bool) (b : Nat)
    (args : List Arg) (outs : IOStream σ) (r : List Arg × IOStream σ)
    (h : IOStream.convert t d c sg b args outs = some r) : r.2.m_base = outs.m_base := by
  unfold IOStream.convert at h
  split at h
  · split at h
    · cases h
      rfl
    · cases h
  · split at h
    · split at h
      · simp only [Option.map_eq_some'] at h
        obtain ⟨o, ho, rfl⟩ := h
        exact print_text_base d outs o 16 _ ho
      · cases h
    · split at h
      · split at h
        · simp only [Option.map_eq_some'] at h
          obtain ⟨o, ho, rfl⟩ := h
          exact print_str_base d outs o _ ho
        · cases h
      · split at h
        · split at h
          · simp only [Option.map_eq_some'] at h
            obtain ⟨o, ho, rfl⟩ := h
            exact print_P_base d outs o _ ho
          · cases h
        · split at h
          · split at h
            · split at h
              · simp only [Option.map_eq_some'] at h
                obtain ⟨o, ho, rfl⟩ := h
                exact print_text_base d outs o b _ ho
              · cases h
            · split at h
              · simp only [Option.map_eq_some'] at h
                obtain ⟨o, ho, rfl⟩ := h
                exact print_text_base d outs o b _ ho
              · cases h
          · split at h
            · split at h
              · split at h
                · simp only [Option.map_eq_some'] at h
                  obtain ⟨o, ho, rfl⟩ := h
                  exact print_text_base d outs o b _ ho
                · cases h
              · split at h
                · simp only [Option.map_eq_some'] at h
                  obtain ⟨o, ho, rfl⟩ := h
                  exact print_text_base d outs o b _ ho
                · cases h
            · cases h

theorem vprintfLoop_base {σ : Type} (t : Target) (d : Device σ) (s : List Nat)
    (mode : Option (Bool × Nat)) (args : List Arg) (outs : IOStream σ)
    (r : List Arg × IOStream σ) (h : IOStream.vprintfLoop t d s mode args outs = some r) :
    r.2.m_base = outs.m_base := by
  induction s generalizing mode args outs with
  | nil => cases mode <;> simp [IOStream.vprintfLoop] at h
  | cons c s ih =>
    cases mode with
    | none =>
      rw [IOStream.vprintfLoop] at h
      split at h
      · cases h
        rfl
      · split at h
        · exact ih _ _ _ h
        · exact ih _ _ (IOStream.print_char d outs c) h
    | some md =>
      obtain ⟨sg, b⟩ := md
      rw [IOStream.vprintfLoop] at h
      split at h
      · cases h
        rfl
      · split at h
        · exact ih _ _ _ h
        · split at h
          · exact ih _ _ _ h
          · split at h
            · exact ih _ _ _ h
            · split at h
              · exact ih _ _ _ h
              · split at h
                · simp only [Option.bind_eq_some] at h
                  obtain ⟨q, hq, hloop⟩ := h
                  rw [ih _ _ _ hloop]
                  exact convert_base t d c sg b args outs q hq
                · exact ih _ _ (IOStream.print_char d outs c) h

/-- An operation other than a base manipulator keeps the base. -/
theorem apply_base {σ : Type} (t : Target) (d : Device σ) (m : Mem) (outs o : IOStream σ)
    (op : Op) (hop : op.setsBase = false) (h : IOStream.apply t d m outs op = some o) :
    o.m_base = outs.m_base := by
  cases op with
  | printChar c => cases h; rfl
  | printStr s => exact print_str_base d outs o s h
  | printP s => exact print_P_base d outs o s h
  | printInt n base => exact print_text_base d outs o base _ h
  | printLong n base => exact print_text_base d outs o base _ h
  | printUint n base => exact print_text_base d outs o base _ h
  | printUlong n base => exact print_text_base d outs o base _ h
  | printPtr p => exact print_text_base d outs o 16 _ h
  | println => cases h; rfl
  | dump ptr size base max => exact dumpLoop_base t d m base max size ptr 0 outs o h
  | vprintf format args =>
    simp only [IOStream.apply, Option.map_eq_some'] at h
    obtain ⟨r, hr, rfl⟩ := h
    exact vprintfLoop_base t d format none args outs r hr
  | endl => cases h; rfl
  | bin => cases hop
  | oct => cases hop
  | dec => cases hop
  | hex => cases hop

theorem apply_printBase {σ : Type} (t : Target) (d : Device σ) (m : Mem) (outs o : IOStream σ)
    (op : Op) (hb : printBase outs.m_base) (h : IOStream.apply t d m outs op = some o) :
    printBase o.m_base := by
  cases hop : op.setsBase with
  | false => rw [apply_base t d m outs o op hop h]; exact hb
  | true =>
    cases op <;> simp only [Op.setsBase, reduceCtorEq] at hop <;> cases h
    · exact Or.inl rfl
    · exact Or.inr (Or.inl rfl)
    · exact Or.inr (Or.inr (Or.inl rfl))
    · exact Or.inr (Or.inr (Or.inr rfl))

theorem run_base {σ : Type} (t : Target) (d : Device σ) (m : Mem) (ops : List Op)
    (outs o : IOStream σ) (hops : ∀ op ∈ ops, op.setsBase = false)
    (h : IOStream.run t d m ops outs = some o) : o.m_base = outs.m_base := by
  induction ops generalizing outs with
  | nil => cases h; rfl
  | cons op ops ih =>
    rw [IOStream.run] at h
    simp only [Option.bind_eq_some] at h
    obtain ⟨o1, h1, h2⟩ := h
    rw [ih o1 (fun x hx => hops x (List.mem_cons_of_mem _ hx)) h2]
    exact apply_base t d m outs o1 op (hops op (List.mem_cons_self _ _)) h1

theorem run_printBase {σ : Type} (t : Target) (d : Device σ) (m : Mem) (ops : List Op)
    (outs o : IOStream σ) (hb : printBase outs.m_base)
    (h : IOStream.run t d m ops outs = some o) : printBase o.m_base := by
  induction ops generalizing outs with
  | nil => cases h; exact hb
  | cons op ops ih =>
    rw [IOStream.run] at h
    simp only [Option.bind_eq_some] at h
    obtain ⟨o1, h1, h2⟩ := h
    exact ih o1 (apply_printBase t d m outs o1 op hb h1) h2

/-- C18: no `print` overload, memory dump or `vprintf_P` call changes the base
of the stream; so after `bin` the base is still 2 after any sequence of such
operations, and from a new stream (base 10) every state reached by these
operations and the manipulators has a base among 2, 8, 10, 16. -/
theorem base_is_sticky {σ : Type} (t : Target) (d : Device σ) (m : Mem) :
    (∀ (op : Op) (outs o : IOStream σ), op.setsBase = false →
      IOStream.apply t d m outs op = some o → o.m_base = outs.m_base) ∧
    (∀ (ops : List Op) (outs o : IOStream σ), (∀ op ∈ ops, op.setsBase = false) →
      IOStream.run t d m ops (bin outs) = some o → o.m_base = 2) ∧
    (∀ (ops : List Op) (dev : σ) (o : IOStream σ),
      IOStream.run t d m ops (IOStream.init dev) = some o → printBase o.m_base) :=
  ⟨fun op outs o hop h => apply_base t d m outs o op hop h,
   fun ops outs o hops h => run_base t d m ops (bin outs) o hops h,
   fun ops dev o h =>
    run_printBase t d m ops (IOStream.init dev) o (Or.inr (Or.inr (Or.inl rfl))) h⟩

/-- Witness for C18 on the AVR target: after `bin`, printing an `unsigned
int`, a character and a formatted number leaves the base at 2. -/
theorem base_is_sticky_witness :
    ((∀ op ∈ [Op.printUint 5 2, Op.printChar 32, Op.vprintf [37, 100, 0] [Arg.int 7]],
        op.setsBase = false) ∧
      IOStream.run avr (scriptDev 99) sampleMem
          [Op.printUint 5 2, Op.printChar 32, Op.vprintf [37, 100, 0] [Arg.int 7]]
          (bin ⟨⟨[], []⟩, 10⟩)
        = some ⟨⟨[], [48, 98, 49, 48, 49, 32, 55]⟩, 2⟩) ∧
    (⟨⟨[], [48, 98, 49, 48, 49, 32, 55]⟩, 2⟩ : IOStream Script).m_base = 2 :=
  ⟨⟨by decide, by decide⟩,
   (base_is_sticky avr (scriptDev 99) sampleMem).2.1
     [Op.printUint 5 2, Op.printChar 32, Op.vprintf [37, 100, 0] [Arg.int 7]] ⟨⟨[], []⟩, 10⟩
     ⟨⟨[], [48, 98, 49, 48, 49, 32, 55]⟩, 2⟩ (by decide) (by decide)⟩

/-! ### The stores of gets -/

/-- The loop of `gets` leaves every byte outside its range as it was: with a
count of at least 1 the range is `s .. s + count - 1`, with a count of 0 it is
the single byte before `s`. -/
theorem getsLoop_frame {σ : Type} (d : Device σ) (res : Int) (count : Nat) (s : Int) (m : Mem)
    (st : σ) (a : Int) (ha : a < s - 1 ∨ s + count ≤ a ∨ (a < s ∧ 0 < count)) :
    (Device.getsLoop d res count s m st).2.1 a = m a := by
  induction count generalizing s m st with
  | zero =>
    rw [Device.getsLoop]
    exact Mem.set_other _ _ _ _ (by omega)
  | succ count ih =>
    have hs : a ≠ s := by omega
    rw [Device.getsLoop]
    split
    · exact Mem.set_other _ _ _ _ hs
    · split
      · exact Mem.set_other _ _ _ _ hs
      · rw [ih (s + 1) _ _ (by omega)]
        exact Mem.set_other _ _ _ _ hs

/-- With a count of at least 1, `gets` stores only at the indices
`0 .. maxCount - 1` of the buffer. -/
theorem gets_frame {σ : Type} (d : Device σ) (s : Int) (maxCount : Nat) (m : Mem) (st : σ)
    (a : Int) (h1 : 1 ≤ maxCount) (ha : a < s ∨ s + maxCount ≤ a) :
    (d.gets s maxCount m st).2.1 a = m a :=
  getsLoop_frame d s maxCount s m st a (by omega)

/-- C22 (the code at the failing input): `gets` with a count of 0 on a buffer
at address 100 reads nothing and stores the terminator at address 99, the
byte before the start of the buffer, which held 7; the buffer itself is left
as it was. -/
theorem gets_zero_count_writes_before_buffer :
    ((scriptDev 0).gets 100 0 sevenMem ⟨[97, 10], []⟩).1 = some 100 ∧
    sevenMem 99 = 7 ∧
    ((scriptDev 0).gets 100 0 sevenMem ⟨[97, 10], []⟩).2.1 99 = 0 ∧
    ((scriptDev 0).gets 100 0 sevenMem ⟨[97, 10], []⟩).2.1 100 = 7 ∧
    ((scriptDev 0).gets 100 0 sevenMem ⟨[97, 10], []⟩).2.2 = ⟨[97, 10], []⟩ := by
  decide

/-! ### The spacing of the memory dump -/

theorem dumpSpacedValues_succ (t : Target) (m : Mem) (base p cnt : Nat) :
    dumpSpacedValues t m base p (cnt + 1)
      = dumpSpacedValues t m base p cnt ++
          (dumpValue t base (m ((p + cnt : Nat) : Int)) ++ [32]) := by
  simp [dumpSpacedValues, List.range_succ]

/-- Cells that stay short of the last column are the values each followed by
a space. -/
theorem dumpCells_spaced (t : Target) (m : Mem) (base max cnt p col : Nat)
    (h : col + cnt < max) :
    dumpCells t m base max cnt p col = dumpSpacedValues t m base p cnt := by
  induction cnt with
  | zero => rfl
  | succ cnt ih =>
    rw [dumpCells_succ_last, ih (by omega), dumpSpacedValues_succ, dumpCell,
      if_pos (by omega)]

theorem dumpLine_full (t : Target) (m : Mem) (base max p : Nat) (h1 : 1 ≤ max) :
    dumpLine t m base max p max = dumpFullLine t m base max p := by
  obtain ⟨k, rfl⟩ : ∃ k, max = k + 1 := ⟨max - 1, by omega⟩
  rw [dumpLine, dumpCells_succ_last, dumpCells_spaced t m base (k + 1) k p 0 (by omega),
    dumpCell, Nat.zero_add, if_neg (Nat.lt_irrefl _), dumpFullLine, Nat.add_sub_cancel]
  simp [List.append_assoc]

theorem dumpLine_partial (t : Target) (m : Mem) (base max p cnt : Nat) (h : cnt < max) :
    dumpLine t m base max p cnt = dumpPartialLine t m base p cnt := by
  rw [dumpLine, dumpCells_spaced t m base max cnt p 0 (by omega), dumpPartialLine]

theorem dumpSpacedText_zero (t : Target) (m : Mem) (base max ptr : Nat) :
    dumpSpacedText t m base max ptr 0 = [] := by
  simp [dumpSpacedText]

theorem dumpSpacedText_short (t : Target) (m : Mem) (base max ptr size : Nat) (h0 : 0 < size)
    (hsize : size < max) :
    dumpSpacedText t m base max ptr size = dumpPartialLine t m base ptr size := by
  have hne : size ≠ 0 := by omega
  simp [dumpSpacedText, Nat.div_eq_of_lt hsize, Nat.mod_eq_of_lt hsize, hne]

theorem dumpSpacedText_step (t : Target) (m : Mem) (base max ptr r : Nat) (h1 : 1 ≤ max) :
    dumpSpacedText t m base max ptr (max + r)
      = dumpFullLine t m base max ptr ++ dumpSpacedText t m base max (ptr + max) r := by
  have hdiv : (max + r) / max = r / max + 1 := by
    rw [Nat.add_comm max r]
    exact Nat.add_div_right _ (by omega)
  have hmod : (max + r) % max = r % max := by
    rw [Nat.add_comm max r]
    exact Nat.add_mod_right _ _
  have hlines : ((List.range (r / max + 1)).flatMap fun k =>
        dumpFullLine t m base max (ptr + k * max))
      = dumpFullLine t m base max ptr ++
          (List.range (r / max)).flatMap fun k =>
            dumpFullLine t m base max (ptr + max + k * max) := by
    rw [List.range_succ_eq_map, List.flatMap_cons, Nat.zero_mul, Nat.add_zero,
      List.flatMap_map]
    congr 1
    apply List.flatMap_congr
    intro k _
    rw [Nat.succ_eq_add_one, Nat.add_mul, Nat.one_mul,
      show ptr + (k * max + max) = ptr + max + k * max by omega]
  rw [dumpSpacedText, hdiv, hmod, hlines, dumpSpacedText, List.append_assoc,
    Nat.add_mul, Nat.one_mul,
    show ptr + (r / max * max + max) = ptr + max + r / max * max by omega]

/-- The lines of the dump, one after the other, are the spaced text. -/
theorem dumpLines_flatten_eq_spaced (t : Target) (m : Mem) (base max : Nat) (h1 : 1 ≤ max)
    (size ptr : Nat) :
    (dumpLines t m base max ptr size).flatten = dumpSpacedText t m base max ptr size := by
  induction size using Nat.strong_induction_on generalizing ptr with
  | _ size ih =>
    rcases Nat.eq_zero_or_pos size with rfl | hpos
    · rw [dumpLines_zero t m base max ptr h1, dumpSpacedText_zero]
      rfl
    · rcases Nat.lt_or_ge size max with hlt | hge
      · rw [dumpLines_short t m base max ptr size hpos (by omega),
          dumpSpacedText_short t m base max ptr size hpos hlt,
          dumpLine_partial t m base max ptr size hlt]
        simp
      · obtain ⟨r, rfl⟩ : ∃ r, size = max + r := ⟨size - max, by omega⟩
        rw [dumpLines_step t m base max ptr r h1, dumpSpacedText_step t m base max ptr r h1,
          List.flatten_cons, ih r (by omega), dumpLine_full t m base max ptr h1]

theorem dumpValue_mod (t : Target) (base b : Nat) :
    dumpValue t base b = dumpValue t base (b % 256) := by
  simp [dumpValue, Nat.mod_mod]

theorem dumpValue_ne_nil (t : Target) (base b : Nat) (hbase : printBase base)
    (hi : 10 ≤ t.intBits) : dumpValue t base b ≠ [] := by
  have hb : b % 256 < 256 := Nat.mod_lt _ (by decide)
  rw [dumpValue_mod, dumpValue_of_byte t base (b % 256) hi hb, ← List.length_pos]
  rcases hbase with rfl | rfl | rfl | rfl
  · rw [(dump_binary_digits _ hb).1]
    decide
  · rw [(dump_octal_digits _ hb).1]
    decide
  · rw [(dump_decimal_digits _ hb).1]
    exact List.length_pos.mpr (utoaText_ne_nil _ _)
  · rw [(dump_hex_digits _ hb).1]
    decide

theorem dumpValue_ge (t : Target) (base b : Nat) : ∀ c ∈ dumpValue t base b, 48 ≤ c :=
  fun c hc => utoaText_ge _ _ c (List.mem_of_mem_drop hc)

/-- When the size is not a multiple of `max`, the spaced text ends with the
last value, one space and the line break. -/
theorem dumpSpacedText_partial_end (t : Target) (m : Mem) (base max ptr size : Nat)
    (h : size % max ≠ 0) :
    ∃ pre, dumpSpacedText t m base max ptr size
      = pre ++ dumpValue t base (m ((ptr + size - 1 : Nat) : Int)) ++ [32, 10] := by
  obtain ⟨r, hr⟩ : ∃ r, size % max = r + 1 := ⟨size % max - 1, by omega⟩
  have hsize : ptr + size / max * max + r = ptr + size - 1 := by
    have := Nat.div_add_mod size max
    rw [Nat.mul_comm] at this
    omega
  refine ⟨((List.range (size / max)).flatMap fun k =>
      dumpFullLine t m base max (ptr + k * max)) ++ (addrText t (ptr + size / max * max) ++
        [58, 32] ++ dumpSpacedValues t m base (ptr + size / max * max) r), ?_⟩
  rw [dumpSpacedText, if_pos h, dumpPartialLine, hr, dumpSpacedValues_succ, hsize]
  simp [List.append_assoc]

/-- C21: in the memory dump with `max` from 1 to 255 (base in 2, 8, 10, 16, an
`int` of at least 10 bits, a Device that accepts the bytes) the bytes sent are
`size / max` full lines and, when `size` is not a multiple of `max`, a final
partial line.  In a full line each of the first `max - 1` values is followed
by exactly one space and the `max`-th value directly by the line break; in
the partial line every value is followed by one space, so the line ends with
its last value, one space, then the line break.  A value is never empty and
holds neither a space nor a line break. -/
theorem dump_spacing {σ : Type} (t : Target) (d : Device σ) (m : Mem) (outs : IOStream σ)
    (ptr size base max : Nat) (hbase : printBase base) (hi : 10 ≤ t.intBits) (h1 : 1 ≤ max)
    (hmax : max < 256) (hacc : d.accepts (dumpSpacedText t m base max ptr size) outs.dev) :
    IOStream.dump t d m outs ptr size base max
      = some { outs with dev := d.putAll (dumpSpacedText t m base max ptr size) outs.dev } ∧
    (∀ p, dumpFullLine t m base max p
      = addrText t p ++ [58, 32] ++ dumpSpacedValues t m base p (max - 1) ++
          dumpValue t base (m ((p + (max - 1) : Nat) : Int)) ++ [10]) ∧
    (∀ p cnt, dumpPartialLine t m base p cnt
      = addrText t p ++ [58, 32] ++ dumpSpacedValues t m base p cnt ++ [10]) ∧
    (∀ p cnt, dumpSpacedValues t m base p (cnt + 1)
      = dumpSpacedValues t m base p cnt ++
          (dumpValue t base (m ((p + cnt : Nat) : Int)) ++ [32])) ∧
    (∀ b, dumpValue t base b ≠ [] ∧ ∀ c ∈ dumpValue t base b, c ≠ 32 ∧ c ≠ 10) ∧
    (size % max ≠ 0 → ∃ pre, dumpSpacedText t m base max ptr size
      = pre ++ dumpValue t base (m ((ptr + size - 1 : Nat) : Int)) ++ [32, 10]) := by
  refine ⟨?_, fun _ => rfl, fun _ _ => rfl, fun p cnt => dumpSpacedValues_succ t m base p cnt,
    fun b => ⟨dumpValue_ne_nil t base b hbase hi, fun c hc => ?_⟩,
    fun h => dumpSpacedText_partial_end t m base max ptr size h⟩
  · rw [← dumpLines_flatten_eq_spaced t m base max h1 size ptr,
      ← dumpLoopText_eq_lines t m base max h1 hmax size ptr] at hacc ⊢
    exact dumpLoop_accepted t d m base max hbase (le_trans (by decide) hi) size ptr 0 outs hacc
  · have := dumpValue_ge t base b c hc
    omega

/-- Witness for C21 on the AVR target: three bytes from address 16 dumped in
octal, two to a line: "0x10: 000 377" with no space before the line break,
then "0x12: 377 " with one. -/
theorem dump_spacing_witness :
    (printBase 8 ∧ 10 ≤ avr.intBits ∧ 1 ≤ 2 ∧ 2 < 256 ∧
      (scriptDev 99).accepts (dumpSpacedText avr sampleMem 8 2 16 3) ⟨[], []⟩) ∧
    IOStream.dump avr (scriptDev 99) sampleMem ⟨⟨[], []⟩, 10⟩ 16 3 8 2
      = some { (⟨⟨[], []⟩, 10⟩ : IOStream Script) with
          dev := (scriptDev 99).putAll (dumpSpacedText avr sampleMem 8 2 16 3) ⟨[], []⟩ } ∧
    dumpSpacedText avr sampleMem 8 2 16 3
      = [48, 120, 49, 48, 58, 32, 48, 48, 48, 32, 51, 55, 55, 10,
         48, 120, 49, 50, 58, 32, 51, 55, 55, 32, 10] :=
  ⟨⟨by decide, by decide, by decide, by decide, scriptDev_accepts _ _ _ (by decide)⟩,
   (dump_spacing avr (scriptDev 99) sampleMem ⟨⟨[], []⟩, 10⟩ 16 3 8 2 (by decide) (by decide)
     (by decide) (by decide) (scriptDev_accepts _ _ _ (by decide))).1,
   by decide⟩

end Cosa
